import Mathlib

/-!
# Verification of the sliding-tile puzzle A* benchmark

Shallow embedding of `8puzzle.py` and `15puzzle.py`:
sliding-tile states, the blank finder, the move generator, the heuristic
functions, the exact CPython `heapq` priority queue, the two `a_star_search`
loops (with an event log recording every pop, successor creation and push),
the solvability check and the two reachable-state samplers.

A puzzle state is embedded as a list of rows of naturals, mirroring the
Python tuple-of-tuples.  A `Puzzle` object is embedded as `Node` carrying
the state and the `cost` field (`g`); the `parent` and `move` fields of the
Python class only support path reconstruction and are never read by the
search, so they are omitted.  All functions are fuel-free structural
recursions or carry explicit fuel, so every run on a concrete input
evaluates inside the kernel.
-/

/-- A grid state: list of rows, `0` is the blank (Python tuple of tuples). -/
abbrev GState := List (List Nat)

/-- Read cell `(r, c)`; out-of-range reads default to `0` (never exercised by
the code, which always indexes in bounds). -/
def getCell (s : GState) (r c : Nat) : Nat := (s.getD r []).getD c 0

/-- Write cell `(r, c)`. -/
def setCell (s : GState) (r c : Nat) (v : Nat) : GState :=
  s.set r ((s.getD r []).set c v)

/-- The simultaneous swap
`new[r][c], new[r2][c2] = old[r2][c2], old[r][c]` from `possible_moves`. -/
def swapCells (s : GState) (r c r2 c2 : Nat) : GState :=
  setCell (setCell s r c (getCell s r2 c2)) r2 c2 (getCell s r c)

/-- Index of the first `0` in a row (the inner loop of `find_blank`). -/
def findZeroIdx : List Nat → Option Nat
  | [] => none
  | v :: rest => if v = 0 then some 0 else (findZeroIdx rest).map (· + 1)

/-- Row scan of `find_blank`, carrying the current row index. -/
def findBlankAux : List (List Nat) → Nat → Option (Nat × Nat)
  | [], _ => none
  | row :: rest, r =>
    match findZeroIdx row with
    | some c => some (r, c)
    | none => findBlankAux rest (r + 1)

/-- Embedding of `Puzzle.find_blank`: position of the first `0` scanning rows then columns;
`none` embeds the Python `None` returned when no blank exists. -/
def findBlank (s : GState) : Option (Nat × Nat) := findBlankAux s 0

/-- Search node: the Python `Puzzle` object (state plus `g`-cost). -/
structure Node where
  state : GState
  cost : Nat
deriving DecidableEq, Repr, Inhabited

/-- The `MOVES` offsets (left, right, up, down).  The Python source stores
them in a `set`; iteration order is fixed here as written in the source.
No theorem below depends on this order. -/
def movesList : List (Int × Int) := [(0, -1), (0, 1), (-1, 0), (1, 0)]

/-- Embedding of `Puzzle.possible_moves` on an `n × n` grid (`n = 3` resp. `4` in the two
source files): for each offset whose target stays in bounds, swap the blank
with the target cell and build a child node with cost `g + 1`.  When
`find_blank` found no blank the Python code would crash unpacking `None`;
that branch returns `[]` and is never reached from well-formed states. -/
def possibleMoves (n : Nat) (nd : Node) : List Node :=
  match findBlank nd.state with
  | none => []
  | some (r, c) =>
    movesList.filterMap (fun d =>
      let nr : Int := (r : Int) + d.1
      let nc : Int := (c : Int) + d.2
      if 0 ≤ nr ∧ nr < (n : Int) ∧ 0 ≤ nc ∧ nc < (n : Int) then
        some ⟨swapCells nd.state r c nr.toNat nc.toNat, nd.cost + 1⟩
      else
        none)

/-- The `GOAL_STATE` of the 8-puzzle. -/
def GOAL8 : GState := [[1, 2, 3], [4, 5, 6], [7, 8, 0]]

/-- The `GOAL_STATE` of the 15-puzzle. -/
def GOAL15 : GState :=
  [[1, 2, 3, 4], [5, 6, 7, 8], [9, 10, 11, 12], [13, 14, 15, 0]]

/-- Python `abs(a - b)` on naturals (the Python ints here are always nonnegative). -/
def absDiff (a b : Nat) : Nat := (a - b) + (b - a)

/-- Embedding of `h1_misplaced_tiles` (8-puzzle): count cells that are nonzero and differ
from the goal cell. -/
def h1_misplaced_tiles8 (s : GState) : Nat :=
  ∑ r ∈ Finset.range 3, ∑ c ∈ Finset.range 3,
    if getCell s r c ≠ 0 ∧ getCell s r c ≠ getCell GOAL8 r c then 1 else 0

/-- Embedding of `h2_manhattan_distance` (8-puzzle): sum over nonzero tiles of the grid
distance to the goal position `((val-1) // 3, (val-1) % 3)`. -/
def h2_manhattan_distance8 (s : GState) : Nat :=
  ∑ r ∈ Finset.range 3, ∑ c ∈ Finset.range 3,
    if getCell s r c ≠ 0 then
      absDiff ((getCell s r c - 1) / 3) r + absDiff ((getCell s r c - 1) % 3) c
    else 0

/-- Embedding of `h1_misplaced_tiles` (15-puzzle). -/
def h1_misplaced_tiles15 (s : GState) : Nat :=
  ∑ r ∈ Finset.range 4, ∑ c ∈ Finset.range 4,
    if getCell s r c ≠ 0 ∧ getCell s r c ≠ getCell GOAL15 r c then 1 else 0

/-- Embedding of `h2_manhattan_distance` (15-puzzle). -/
def h2_manhattan_distance15 (s : GState) : Nat :=
  ∑ r ∈ Finset.range 4, ∑ c ∈ Finset.range 4,
    if getCell s r c ≠ 0 then
      absDiff ((getCell s r c - 1) / 4) r + absDiff ((getCell s r c - 1) % 4) c
    else 0

/-- Embedding of `linear_conflict` (15-puzzle): row conflicts plus column conflicts, each
conflict weighted by 2 (`return conflict * 2`). -/
def linear_conflict15 (s : GState) : Nat :=
  ((∑ i ∈ Finset.range 4, ∑ j ∈ Finset.range 4,
      if getCell s i j ≠ 0 ∧ (getCell s i j - 1) / 4 = i then
        ∑ k ∈ Finset.Ico (j + 1) 4,
          if getCell s i k ≠ 0 ∧ (getCell s i k - 1) / 4 = i ∧
              (getCell s i j - 1) % 4 > (getCell s i k - 1) % 4 then 1 else 0
      else 0) +
    (∑ j ∈ Finset.range 4, ∑ i ∈ Finset.range 4,
      if getCell s i j ≠ 0 ∧ (getCell s i j - 1) % 4 = j then
        ∑ k ∈ Finset.Ico (i + 1) 4,
          if getCell s k j ≠ 0 ∧ (getCell s k j - 1) % 4 = j ∧
              (getCell s i j - 1) / 4 > (getCell s k j - 1) / 4 then 1 else 0
      else 0)) * 2

/-- Embedding of `h3_manhattan_linear` (15-puzzle): Manhattan distance plus linear
conflict. -/
def h3_manhattan_linear15 (s : GState) : Nat :=
  h2_manhattan_distance15 s + linear_conflict15 s

/-!
## The CPython `heapq` priority queue

`heappush`/`heappop` are transcribed from CPython's `heapq._siftdown` and
`heapq._siftup` so that concrete runs reproduce the exact pop order of the
Python program, including its implementation-defined behaviour on equal
keys.  The bubbling loops carry fuel; `length + 1` steps always suffice
(`_siftdown` strictly decreases the position, `_siftup` strictly increases
it below `length`). -/

/-- CPython `heapq._siftdown(heap, startpos, pos)`: bubble `newitem` up from
`pos` toward `startpos`, moving larger parents down. -/
def siftdownAux (lt : α → α → Bool) (newitem : α) (startpos : Nat) :
    Nat → Nat → List α → List α
  | 0, pos, heap => heap.set pos newitem
  | fuel + 1, pos, heap =>
    if startpos < pos then
      let parentpos := (pos - 1) / 2
      let parent := heap.getD parentpos newitem
      if lt newitem parent then
        siftdownAux lt newitem startpos fuel parentpos (heap.set pos parent)
      else heap.set pos newitem
    else heap.set pos newitem

/-- The loop of CPython `heapq._siftup(heap, pos)`: move the smaller child up
until reaching a leaf, returning the final position. -/
def siftupAux (lt : α → α → Bool) (newitem : α) :
    Nat → Nat → List α → Nat × List α
  | 0, pos, heap => (pos, heap)
  | fuel + 1, pos, heap =>
    let endpos := heap.length
    let childpos := 2 * pos + 1
    if childpos < endpos then
      let rightpos := childpos + 1
      let cp :=
        if rightpos < endpos ∧
            ¬ lt (heap.getD childpos newitem) (heap.getD rightpos newitem) = true then
          rightpos
        else childpos
      siftupAux lt newitem fuel cp (heap.set pos (heap.getD cp newitem))
    else (pos, heap)

/-- CPython `heapq._siftup(heap, pos)`: sift the item at `pos` to a leaf,
then bubble it back up with `_siftdown`. -/
def siftup (lt : α → α → Bool) (pos : Nat) (heap : List α) (dflt : α) :
    List α :=
  let newitem := heap.getD pos dflt
  let res := siftupAux lt newitem (heap.length + 1) pos heap
  siftdownAux lt newitem pos (res.2.length + 1) res.1 (res.2.set res.1 newitem)

/-- CPython `heapq.heappush`: append, then `_siftdown(heap, 0, len - 1)`. -/
def heappush (lt : α → α → Bool) (heap : List α) (item : α) : List α :=
  siftdownAux lt item 0 (heap.length + 1) heap.length (heap ++ [item])

/-- CPython `heapq.heappop`: pop the last element; if the heap is still
nonempty, take its root as the result, move the last element to the root and
`_siftup`.  `none` embeds the `IndexError` on an empty heap (the search loops
only pop after a nonemptiness test, mirroring `while open_set`). -/
def heappop [Inhabited α] (lt : α → α → Bool) (heap : List α) :
    Option (α × List α) :=
  match heap with
  | [] => none
  | _ :: _ =>
    let lastelt := heap.getLastD default
    let rest := heap.dropLast
    match rest with
    | [] => some (lastelt, [])
    | _ :: _ => some (rest.headD default, siftup lt 0 (rest.set 0 lastelt) default)

/-- Embedding of `Puzzle.__lt__` of the 8-puzzle: always `False`. -/
def nodeLt8 (_ _ : Node) : Bool := false

/-- Embedding of `Puzzle.__lt__` of the 15-puzzle: compare `cost + h2_manhattan_distance`,
regardless of the heuristic the search was started with. -/
def nodeLt15 (a b : Node) : Bool :=
  decide (a.cost + h2_manhattan_distance15 a.state <
    b.cost + h2_manhattan_distance15 b.state)

/-- Python tuple comparison on heap entries `(f, node)`: compare priorities;
on equal priorities compare the nodes with `__lt__`, except that nodes with
equal states are equal (`Puzzle.__eq__` compares states), making the tuples
equal, hence not `<`. -/
def entryLt (nodeLt : Node → Node → Bool) (a b : Nat × Node) : Bool :=
  decide (a.1 < b.1) ||
    (decide (a.1 = b.1) && !decide (a.2.state = b.2.state) && nodeLt a.2 b.2)

/-- Observable events of a search run: each heap pop, each successor node
created by `possible_moves`, and each push onto the open heap.  Events
record the entry priority `f`, the state and the `g`-cost. -/
inductive SEvent where
  | pop (f : Nat) (st : GState) (g : Nat)
  | create (st : GState) (g : Nat)
  | push (f : Nat) (st : GState) (g : Nat)
deriving DecidableEq, Repr

/-- Number of pop events. -/
def popCount (evs : List SEvent) : Nat :=
  evs.countP (fun e => match e with | SEvent.pop _ _ _ => true | _ => false)

/-- Number of successor-creation events. -/
def createCount (evs : List SEvent) : Nat :=
  evs.countP (fun e => match e with | SEvent.create _ _ => true | _ => false)

/-- Number of push events. -/
def pushCount (evs : List SEvent) : Nat :=
  evs.countP (fun e => match e with | SEvent.push _ _ _ => true | _ => false)

/-- The `(state, g)` pairs pushed, in order. -/
def pushedList (evs : List SEvent) : List (GState × Nat) :=
  evs.filterMap (fun e => match e with
    | SEvent.push _ st g => some (st, g)
    | _ => none)

/-- Result of one expansion in the 8-puzzle loop. -/
structure Exp8 where
  openq : List (Nat × Node)
  nodes : Nat
  evs : List SEvent
deriving Repr

/-- The successor loop of the 8-puzzle `a_star_search`:
`for child in current.possible_moves(): if child.state not in visited:
heappush(open_set, (child.cost + heuristic(child.state), child));
nodes_expanded += 1`.  Returns the new heap, the *increment* to
`nodes_expanded` and the events of this expansion. -/
def expand8 (heur : GState → Nat) (visited : List GState)
    (openq : List (Nat × Node)) : List Node → Exp8
  | [] => ⟨openq, 0, []⟩
  | child :: rest =>
    if child.state ∈ visited then
      let r := expand8 heur visited openq rest
      ⟨r.openq, r.nodes, SEvent.create child.state child.cost :: r.evs⟩
    else
      let f := child.cost + heur child.state
      let r := expand8 heur visited (heappush (entryLt nodeLt8) openq (f, child)) rest
      ⟨r.openq, r.nodes + 1,
        SEvent.create child.state child.cost ::
          SEvent.push f child.state child.cost :: r.evs⟩

/-- The `while open_set` loop of the 8-puzzle `a_star_search`.  The outer
`Option` is fuel exhaustion; the inner `Option (Nat × Nat)` is the Python
return value (`None` when the open set empties, otherwise
`(steps, nodes_expanded)`), paired with the event log of the run. -/
def loop8 (heur : GState → Nat) :
    Nat → List (Nat × Node) → List GState → Nat → Nat →
    Option (Option (Nat × Nat) × List SEvent)
  | 0, _, _, _, _ => none
  | fuel + 1, openq, visited, steps, nodes =>
    match heappop (entryLt nodeLt8) openq with
    | none => some (none, [])
    | some (e, rest) =>
      if e.2.state = GOAL8 then
        some (some (steps + 1, nodes), [SEvent.pop e.1 e.2.state e.2.cost])
      else
        let visited2 := List.insert e.2.state visited
        let a := expand8 heur visited2 rest (possibleMoves 3 e.2)
        match loop8 heur fuel a.openq visited2 (steps + 1) (nodes + a.nodes) with
        | none => none
        | some (res, evtail) =>
          some (res, SEvent.pop e.1 e.2.state e.2.cost :: (a.evs ++ evtail))

/-- The 8-puzzle `a_star_search`: push `(0, start_state)` onto an empty heap,
start with an empty `visited` set and zero counters. -/
def a_star_search8 (start : Node) (heur : GState → Nat) (fuel : Nat) :
    Option (Option (Nat × Nat) × List SEvent) :=
  loop8 heur fuel (heappush (entryLt nodeLt8) [] (0, start)) [] 0 0

/-- Python `dict` lookup on the 15-puzzle `visited` map. -/
def lookupAssoc (k : GState) : List (GState × Nat) → Option Nat
  | [] => none
  | (k2, v2) :: rest => if k2 = k then some v2 else lookupAssoc k rest

/-- Python `dict` assignment `visited[k] = v`. -/
def updateAssoc (k : GState) (v : Nat) : List (GState × Nat) → List (GState × Nat)
  | [] => [(k, v)]
  | (k2, v2) :: rest =>
    if k2 = k then (k, v) :: rest else (k2, v2) :: updateAssoc k v rest

/-- Result of one expansion in the 15-puzzle loop. -/
structure Exp15 where
  openq : List (Nat × Node)
  visited : List (GState × Nat)
  nodes : Nat
  evs : List SEvent
deriving Repr

/-- The successor loop of the 15-puzzle `a_star_search`:
`for child in possible_moves: nodes_expanded += 1; g = child.cost;
if child.state not in visited or g < visited[child.state]:
visited[child.state] = g; heappush(open_set, (g + heuristic(child.state), child))`.
The `visited` map evolves during the loop, exactly as the Python dict does. -/
def expand15 (heur : GState → Nat) :
    List (Nat × Node) → List (GState × Nat) → List Node → Exp15
  | openq, visited, [] => ⟨openq, visited, 0, []⟩
  | openq, visited, child :: rest =>
    let g := child.cost
    let better :=
      match lookupAssoc child.state visited with
      | none => true
      | some g0 => decide (g < g0)
    if better then
      let f := g + heur child.state
      let r := expand15 heur (heappush (entryLt nodeLt15) openq (f, child))
        (updateAssoc child.state g visited) rest
      ⟨r.openq, r.visited, r.nodes + 1,
        SEvent.create child.state g :: SEvent.push f child.state g :: r.evs⟩
    else
      let r := expand15 heur openq visited rest
      ⟨r.openq, r.visited, r.nodes + 1, SEvent.create child.state g :: r.evs⟩

/-- The `while open_set` loop of the 15-puzzle `a_star_search`. -/
def loop15 (heur : GState → Nat) :
    Nat → List (Nat × Node) → List (GState × Nat) → Nat → Nat →
    Option (Option (Nat × Nat) × List SEvent)
  | 0, _, _, _, _ => none
  | fuel + 1, openq, visited, steps, nodes =>
    match heappop (entryLt nodeLt15) openq with
    | none => some (none, [])
    | some (e, rest) =>
      if e.2.state = GOAL15 then
        some (some (steps + 1, nodes), [SEvent.pop e.1 e.2.state e.2.cost])
      else
        let a := expand15 heur rest visited (possibleMoves 4 e.2)
        match loop15 heur fuel a.openq a.visited (steps + 1) (nodes + a.nodes) with
        | none => none
        | some (res, evtail) =>
          some (res, SEvent.pop e.1 e.2.state e.2.cost :: (a.evs ++ evtail))

/-- The 15-puzzle `a_star_search`: push the start node with priority
`start.cost + heuristic(start.state)` and record
`visited = {start.state: start.cost}` before the loop. -/
def a_star_search15 (start : Node) (heur : GState → Nat) (fuel : Nat) :
    Option (Option (Nat × Nat) × List SEvent) :=
  loop15 heur fuel
    (heappush (entryLt nodeLt15) [] (start.cost + heur start.state, start))
    [(start.state, start.cost)] 0 0

/-- The `(steps, nodes_expanded)` outcome of an 8-puzzle run. -/
def runResult8 (start : Node) (heur : GState → Nat) (fuel : Nat) :
    Option (Option (Nat × Nat)) :=
  (a_star_search8 start heur fuel).map Prod.fst

/-- The event log of an 8-puzzle run (empty if fuel ran out). -/
def runEvents8 (start : Node) (heur : GState → Nat) (fuel : Nat) :
    List SEvent :=
  match a_star_search8 start heur fuel with
  | none => []
  | some (_, evs) => evs

/-- The `(steps, nodes_expanded)` outcome of a 15-puzzle run. -/
def runResult15 (start : Node) (heur : GState → Nat) (fuel : Nat) :
    Option (Option (Nat × Nat)) :=
  (a_star_search15 start heur fuel).map Prod.fst

/-- The event log of a 15-puzzle run (empty if fuel ran out). -/
def runEvents15 (start : Node) (heur : GState → Nat) (fuel : Nat) :
    List SEvent :=
  match a_star_search15 start heur fuel with
  | none => []
  | some (_, evs) => evs

/-!
## Solvability check and reachable-state samplers

The Python samplers draw randomness from `random.shuffle` and
`random.choice`.  Randomness is modelled as an explicit input: a list of
pre-shuffled tile sequences for the 8-puzzle, and a list of naturals (taken
modulo the number of neighbours) for the 15-puzzle's `random.choice`.  The
unbounded `while` loops carry fuel; `none` means the randomness stream or
the fuel ran out before `n` states were collected. -/

/-- Rebuild a 3×3 grid from a flat 9-element list
(`tuple(tuple(shuffled[i:i+3]) for i in range(0, 9, 3))`). -/
def toGrid3 (l : List Nat) : GState :=
  [l.take 3, (l.drop 3).take 3, (l.drop 6).take 3]

/-- Inversion count of a flat sequence (`is_solvable`'s double loop). -/
def inversions (l : List Nat) : Nat :=
  ∑ i ∈ Finset.range l.length, ∑ j ∈ Finset.Ico (i + 1) l.length,
    if l.getD i 0 > l.getD j 0 then 1 else 0

/-- Embedding of `is_solvable` (8-puzzle): even inversion parity of the flattened
non-blank tiles. -/
def is_solvable8 (s : GState) : Bool :=
  decide (inversions (s.flatten.filter (fun v => v ≠ 0)) % 2 = 0)

/-- The `while len(states) < n` loop of the 8-puzzle
`create_reachable_states`: take the next shuffle, keep it only if
`is_solvable`, accumulate into a set. -/
def createReachable8Loop (n : Nat) :
    Nat → List (List Nat) → List GState → Option (List GState)
  | 0, _, _ => none
  | fuel + 1, shuffles, acc =>
    if n ≤ acc.length then some acc
    else
      match shuffles with
      | [] => none
      | sh :: rest =>
        let st := toGrid3 sh
        if is_solvable8 st then
          createReachable8Loop n fuel rest (if st ∈ acc then acc else acc ++ [st])
        else
          createReachable8Loop n fuel rest acc

/-- Embedding of `create_reachable_states` (8-puzzle). -/
def create_reachable_states8 (n : Nat) (shuffles : List (List Nat))
    (fuel : Nat) : Option (List GState) :=
  createReachable8Loop n fuel shuffles []

/-- The inner random walk of the 15-puzzle `create_reachable_states`:
`for _ in range(moves): current = random.choice(current.possible_moves())`.
Each `random.choice` consumes one natural from `choices`, reduced modulo the
number of neighbours.  Returns the final node and the rest of the stream. -/
def walk15 : Nat → Node → List Nat → Node × List Nat
  | 0, cur, choices => (cur, choices)
  | m + 1, cur, choices =>
    let neighbors := possibleMoves 4 cur
    let next := neighbors.getD (choices.headD 0 % neighbors.length) cur
    walk15 m next (choices.drop 1)

/-- The `while len(states) < n` loop of the 15-puzzle
`create_reachable_states`: walk `moves` random steps from the goal and
accumulate the end state into a set. -/
def createReachable15Loop (n moves : Nat) :
    Nat → List Nat → List GState → Option (List GState)
  | 0, _, _ => none
  | fuel + 1, choices, acc =>
    if n ≤ acc.length then some acc
    else
      let w := walk15 moves ⟨GOAL15, 0⟩ choices
      createReachable15Loop n moves fuel w.2
        (if w.1.state ∈ acc then acc else acc ++ [w.1.state])

/-- Embedding of `create_reachable_states` (15-puzzle); the source defaults are
`n = 100`, `moves = 10`. -/
def create_reachable_states15 (n moves : Nat) (choices : List Nat)
    (fuel : Nat) : Option (List GState) :=
  createReachable15Loop n moves fuel choices []

/-- States reachable from the 15-puzzle goal by legal moves (the solvability
guarantee the spec ascribes to the random-walk sampler). -/
inductive Reachable15 : GState → Prop
  | base : Reachable15 GOAL15
  | step (s : GState) (c : Nat) (nd : Node) :
      Reachable15 s → nd ∈ possibleMoves 4 ⟨s, c⟩ → Reachable15 nd.state

/-- Modelled from the spec: "plain breadth-first search", the optimality
yardstick of spec §8; no BFS exists in the source.  Level-by-level search
returning the depth at which the goal first appears. -/
def bfsLoop (n : Nat) (goal : GState) :
    Nat → List GState → List GState → Nat → Option Nat
  | 0, _, _, _ => none
  | fuel + 1, frontier, visited, depth =>
    if goal ∈ frontier then some depth
    else
      let visited2 := visited ++ frontier
      let next :=
        ((frontier.flatMap (fun st => (possibleMoves n ⟨st, 0⟩).map Node.state)).filter
          (fun t => decide (t ∉ visited2))).eraseDups
      match next with
      | [] => none
      | _ :: _ => bfsLoop n goal fuel next visited2 (depth + 1)

/-- Modelled from the spec: breadth-first search distance to the 8-puzzle
goal. -/
def bfs8 (start : GState) (fuel : Nat) : Option Nat :=
  bfsLoop 3 GOAL8 fuel [start] [] 0

/-- An `n × n` grid: `n` rows, each of length `n`. -/
def Shaped (n : Nat) (s : GState) : Prop :=
  s.length = n ∧ ∀ row ∈ s, row.length = n

instance (n : Nat) (s : GState) : Decidable (Shaped n s) := by
  unfold Shaped; infer_instance

/-!
## C10: the heap tie-break comparator
-/

/-- C10: the tie-break comparator of the open heap ignores the heuristic the
search runs with: the 15-puzzle `Puzzle.__lt__` orders nodes by
`cost + h2_manhattan_distance(state)` (always Manhattan, also when the
search uses `h1_misplaced_tiles`), and the 8-puzzle `Puzzle.__lt__` returns
`False` for every pair of nodes. -/
theorem c10_tie_break_ignores_heuristic :
    (∀ a b : Node, nodeLt15 a b = true ↔
      a.cost + h2_manhattan_distance15 a.state <
        b.cost + h2_manhattan_distance15 b.state) ∧
    (∀ a b : Node, nodeLt8 a b = false) := by
  constructor
  · intro a b
    simp [nodeLt15]
  · intro a b
    rfl

/-!
## C1: `steps` versus the breadth-first optimal path length

The run from `((1,2,3),(4,5,6),(7,0,8))` (one move from the goal) pops the
start and then the goal, so the code returns `steps = 2`, while the optimal
path length (what plain breadth-first search reports) is `1`.  `steps`
counts heap pops and never equals the solution length; the docstring
("Number of steps taken to reach the goal") and the driver's table header
("Average Steps to Solution") show the path length was the intent. -/

/-- C1: at start `((1,2,3),(4,5,6),(7,0,8))` with the Manhattan heuristic the
8-puzzle `a_star_search` returns `steps = 2` (and `nodes_expanded = 3`),
while breadth-first search finds the optimal path length `1`. -/
theorem c1_steps_differs_from_bfs_length :
    runResult8 ⟨[[1, 2, 3], [4, 5, 6], [7, 0, 8]], 0⟩ h2_manhattan_distance8 5 =
      some (some (2, 3)) ∧
    bfs8 [[1, 2, 3], [4, 5, 6], [7, 0, 8]] 5 = some 1 ∧ (2 : Nat) ≠ 1 :=
  ⟨by decide, by decide, by decide⟩

/-!
## C4: initialization of the search
-/

/-- C4 fails on the 8-puzzle: the start entry is pushed with priority `0`,
not `0 + h(start)`.  Observed on a concrete run: the first pop of the run
from `((1,2,3),(4,5,6),(0,7,8))` carries priority `0`, although
`h2(start) = 2`, so the claimed initial priority `0 + h(start) = 2` differs
from the actual `0`. -/
theorem c4_counterexample_start_priority_zero :
    (runEvents8 ⟨[[1, 2, 3], [4, 5, 6], [0, 7, 8]], 0⟩ h2_manhattan_distance8 5).get? 0 =
      some (SEvent.pop 0 [[1, 2, 3], [4, 5, 6], [0, 7, 8]] 0) ∧
    h2_manhattan_distance8 [[1, 2, 3], [4, 5, 6], [0, 7, 8]] = 2 ∧
    (0 : Nat) ≠ 0 + 2 :=
  ⟨by decide, by decide, by decide⟩

/-- C4 amended: the 15-puzzle initializes as claimed — it pushes the start
node with priority `start.cost + h(start.state)` (which is `0 + h(start)`
for the cost-0 start nodes the driver builds) and records
`visited[start.state] = start.cost` before the loop.  The 8-puzzle instead
pushes the start with constant priority `0` and enters the loop with an
empty visited set (the start state is not recorded). -/
theorem c4_amended_initialization :
    (∀ (start : Node) (heur : GState → Nat) (fuel : Nat),
      a_star_search8 start heur fuel = loop8 heur fuel [(0, start)] [] 0 0) ∧
    (∀ (start : Node) (heur : GState → Nat) (fuel : Nat),
      a_star_search15 start heur fuel =
        loop15 heur fuel [(start.cost + heur start.state, start)]
          [(start.state, start.cost)] 0 0) :=
  ⟨fun _ _ _ => rfl, fun _ _ _ => rfl⟩

/-!
## C2: what the returned counters count

Small counting lemmas about the event log, then an induction over the
search loops relating the returned `(steps, nodes_expanded)` to the log.
-/

@[simp] theorem popCount_nil : popCount [] = 0 := rfl

@[simp] theorem createCount_nil : createCount [] = 0 := rfl

@[simp] theorem pushCount_nil : pushCount [] = 0 := rfl

@[simp] theorem popCount_cons_pop (f : Nat) (st : GState) (g : Nat)
    (evs : List SEvent) :
    popCount (SEvent.pop f st g :: evs) = popCount evs + 1 := by
  simp [popCount, List.countP_cons]

@[simp] theorem popCount_cons_create (st : GState) (g : Nat)
    (evs : List SEvent) :
    popCount (SEvent.create st g :: evs) = popCount evs := by
  simp [popCount, List.countP_cons]

@[simp] theorem popCount_cons_push (f : Nat) (st : GState) (g : Nat)
    (evs : List SEvent) :
    popCount (SEvent.push f st g :: evs) = popCount evs := by
  simp [popCount, List.countP_cons]

@[simp] theorem createCount_cons_pop (f : Nat) (st : GState) (g : Nat)
    (evs : List SEvent) :
    createCount (SEvent.pop f st g :: evs) = createCount evs := by
  simp [createCount, List.countP_cons]

@[simp] theorem createCount_cons_create (st : GState) (g : Nat)
    (evs : List SEvent) :
    createCount (SEvent.create st g :: evs) = createCount evs + 1 := by
  simp [createCount, List.countP_cons]

@[simp] theorem createCount_cons_push (f : Nat) (st : GState) (g : Nat)
    (evs : List SEvent) :
    createCount (SEvent.push f st g :: evs) = createCount evs := by
  simp [createCount, List.countP_cons]

@[simp] theorem pushCount_cons_pop (f : Nat) (st : GState) (g : Nat)
    (evs : List SEvent) :
    pushCount (SEvent.pop f st g :: evs) = pushCount evs := by
  simp [pushCount, List.countP_cons]

@[simp] theorem pushCount_cons_create (st : GState) (g : Nat)
    (evs : List SEvent) :
    pushCount (SEvent.create st g :: evs) = pushCount evs := by
  simp [pushCount, List.countP_cons]

@[simp] theorem pushCount_cons_push (f : Nat) (st : GState) (g : Nat)
    (evs : List SEvent) :
    pushCount (SEvent.push f st g :: evs) = pushCount evs + 1 := by
  simp [pushCount, List.countP_cons]

@[simp] theorem popCount_append (a b : List SEvent) :
    popCount (a ++ b) = popCount a + popCount b := by
  simp [popCount, List.countP_append]

@[simp] theorem createCount_append (a b : List SEvent) :
    createCount (a ++ b) = createCount a + createCount b := by
  simp [createCount, List.countP_append]

@[simp] theorem pushCount_append (a b : List SEvent) :
    pushCount (a ++ b) = pushCount a + pushCount b := by
  simp [pushCount, List.countP_append]

/-- The 8-puzzle expansion logs no pops, one creation per successor, and one
push for each unit added to `nodes_expanded`. -/
theorem expand8_counts (heur : GState → Nat) (visited : List GState) :
    ∀ (children : List Node) (openq : List (Nat × Node)),
      popCount (expand8 heur visited openq children).evs = 0 ∧
      pushCount (expand8 heur visited openq children).evs =
        (expand8 heur visited openq children).nodes ∧
      createCount (expand8 heur visited openq children).evs =
        children.length := by
  intro children
  induction children with
  | nil => intro openq; simp [expand8]
  | cons child rest ih =>
    intro openq
    by_cases h : child.state ∈ visited
    · simpa [expand8, h] using ih openq
    · simpa [expand8, h] using
        ih (heappush (entryLt nodeLt8) openq
          (child.cost + heur child.state, child))

/-- The 15-puzzle expansion logs no pops, one creation per successor (which
is also the unit added to `nodes_expanded`), and one push per successor that
passed the visited-map test. -/
theorem expand15_counts (heur : GState → Nat) :
    ∀ (children : List Node) (openq : List (Nat × Node))
      (visited : List (GState × Nat)),
      popCount (expand15 heur openq visited children).evs = 0 ∧
      createCount (expand15 heur openq visited children).evs =
        children.length ∧
      (expand15 heur openq visited children).nodes = children.length := by
  intro children
  induction children with
  | nil => intro openq visited; simp [expand15]
  | cons child rest ih =>
    intro openq visited
    by_cases h : (match lookupAssoc child.state visited with
      | none => true
      | some g0 => decide (child.cost < g0)) = true
    · simpa [expand15, h] using
        ih (heappush (entryLt nodeLt15) openq
          (child.cost + heur child.state, child))
          (updateAssoc child.state child.cost visited)
    · simpa [expand15, h] using ih openq visited

/-- Loop invariant for the 8-puzzle: a successful return adds the number of
logged pops to `steps` and the number of logged pushes to `nodes_expanded`. -/
theorem loop8_counts :
    ∀ (fuel : Nat) (heur : GState → Nat) (openq : List (Nat × Node))
      (visited : List GState) (steps nodes : Nat)
      (res : Option (Nat × Nat)) (ev : List SEvent),
      loop8 heur fuel openq visited steps nodes = some (res, ev) →
      ∀ S N, res = some (S, N) →
        S = steps + popCount ev ∧ N = nodes + pushCount ev := by
  intro fuel
  induction fuel with
  | zero => intro heur openq visited steps nodes res ev h; simp [loop8] at h
  | succ fuel ih =>
    intro heur openq visited steps nodes res ev h S N hres
    rw [loop8] at h
    rcases hpop : heappop (entryLt nodeLt8) openq with _ | ⟨e, rest⟩ <;>
      rw [hpop] at h
    · simp at h
      exact absurd (h.1.trans hres) (by simp)
    · by_cases hgoal : e.2.state = GOAL8
      · simp only [hgoal, if_pos rfl] at h
        obtain ⟨h1, h2⟩ := Prod.mk.injEq .. ▸ (Option.some.injEq .. ▸ h)
        rw [← h1] at hres
        obtain ⟨hS, hN⟩ := Prod.mk.injEq .. ▸ (Option.some.injEq .. ▸ hres)
        subst hS hN
        rw [← h2]
        simp
      · simp only [if_neg hgoal] at h
        rcases hrec : loop8 heur fuel
            (expand8 heur (List.insert e.2.state visited) rest
              (possibleMoves 3 e.2)).openq
            (List.insert e.2.state visited) (steps + 1)
            (nodes + (expand8 heur (List.insert e.2.state visited) rest
              (possibleMoves 3 e.2)).nodes) with _ | ⟨res2, evtail⟩ <;>
          rw [hrec] at h
        · simp at h
        · simp only [Option.some.injEq, Prod.mk.injEq] at h
          obtain ⟨hres2, hev⟩ := h
          subst hres2
          obtain ⟨hS, hN⟩ := ih heur _ _ _ _ _ _ hrec S N hres
          obtain ⟨e1, e2, e3⟩ := expand8_counts heur
            (List.insert e.2.state visited) (possibleMoves 3 e.2) rest
          subst hev
          constructor
          · simp [hS, e1]
            omega
          · simp [hN, e2]
            omega

/-- Loop invariant for the 15-puzzle: a successful return adds the number of
logged pops to `steps` and the number of logged successor creations to
`nodes_expanded`. -/
theorem loop15_counts :
    ∀ (fuel : Nat) (heur : GState → Nat) (openq : List (Nat × Node))
      (visited : List (GState × Nat)) (steps nodes : Nat)
      (res : Option (Nat × Nat)) (ev : List SEvent),
      loop15 heur fuel openq visited steps nodes = some (res, ev) →
      ∀ S N, res = some (S, N) →
        S = steps + popCount ev ∧ N = nodes + createCount ev := by
  intro fuel
  induction fuel with
  | zero => intro heur openq visited steps nodes res ev h; simp [loop15] at h
  | succ fuel ih =>
    intro heur openq visited steps nodes res ev h S N hres
    rw [loop15] at h
    rcases hpop : heappop (entryLt nodeLt15) openq with _ | ⟨e, rest⟩ <;>
      rw [hpop] at h
    · simp at h
      exact absurd (h.1.trans hres) (by simp)
    · by_cases hgoal : e.2.state = GOAL15
      · simp only [hgoal, if_pos rfl] at h
        obtain ⟨h1, h2⟩ := Prod.mk.injEq .. ▸ (Option.some.injEq .. ▸ h)
        rw [← h1] at hres
        obtain ⟨hS, hN⟩ := Prod.mk.injEq .. ▸ (Option.some.injEq .. ▸ hres)
        subst hS hN
        rw [← h2]
        simp
      · simp only [if_neg hgoal] at h
        rcases hrec : loop15 heur fuel
            (expand15 heur rest visited (possibleMoves 4 e.2)).openq
            (expand15 heur rest visited (possibleMoves 4 e.2)).visited
            (steps + 1)
            (nodes + (expand15 heur rest visited (possibleMoves 4 e.2)).nodes)
            with _ | ⟨res2, evtail⟩ <;>
          rw [hrec] at h
        · simp at h
        · simp only [Option.some.injEq, Prod.mk.injEq] at h
          obtain ⟨hres2, hev⟩ := h
          subst hres2
          obtain ⟨hS, hN⟩ := ih heur _ _ _ _ _ _ hrec S N hres
          obtain ⟨e1, e2, e3⟩ := expand15_counts heur
            (possibleMoves 4 e.2) rest visited
          subst hev
          constructor
          · simp [hS, e1]
            omega
          · simp [hN, e2, e3]
            omega

/-- C2 fails on the 8-puzzle: on the run from `((1,2,3),(4,5,6),(0,7,8))`
with the Manhattan heuristic the code returns `nodes_expanded = 4`, but the
run creates 5 successor nodes (the successor regenerating the already
visited start state is created but not counted, because the 8-puzzle only
counts successors that survive the visited filter and are pushed). -/
theorem c2_counterexample_nodes_expanded :
    runResult8 ⟨[[1, 2, 3], [4, 5, 6], [0, 7, 8]], 0⟩ h2_manhattan_distance8 5 =
      some (some (3, 4)) ∧
    createCount (runEvents8 ⟨[[1, 2, 3], [4, 5, 6], [0, 7, 8]], 0⟩
      h2_manhattan_distance8 5) = 5 ∧
    (4 : Nat) ≠ 5 :=
  ⟨by decide, by decide, by decide⟩

/-- C2 amended: when `a_star_search` terminates at the goal, the returned
`steps` equals the number of pop operations on the open heap in both
programs; the returned `nodes_expanded` equals the number of successor
nodes created in the 15-puzzle, but in the 8-puzzle it equals the number of
successors pushed onto the heap (successors discarded by the visited filter
are created yet not counted). -/
theorem c2_amended_returned_counters :
    (∀ (start : Node) (heur : GState → Nat) (fuel : Nat)
      (S N : Nat) (ev : List SEvent),
      a_star_search8 start heur fuel = some (some (S, N), ev) →
      S = popCount ev ∧ N = pushCount ev) ∧
    (∀ (start : Node) (heur : GState → Nat) (fuel : Nat)
      (S N : Nat) (ev : List SEvent),
      a_star_search15 start heur fuel = some (some (S, N), ev) →
      S = popCount ev ∧ N = createCount ev) := by
  constructor
  · intro start heur fuel S N ev h
    simpa using loop8_counts fuel heur _ _ _ _ _ _ h S N rfl
  · intro start heur fuel S N ev h
    simpa using loop15_counts fuel heur _ _ _ _ _ _ h S N rfl

/-- Witness for `c2_amended_returned_counters`: both halves applied to a
concrete one-move instance, whose full event log is spelled out. -/
theorem c2_amended_returned_counters_witness :
    ((2 : Nat) = popCount
        [SEvent.pop 0 [[1, 2, 3], [4, 5, 6], [7, 0, 8]] 0,
         SEvent.create [[1, 2, 3], [4, 5, 6], [0, 7, 8]] 1,
         SEvent.push 3 [[1, 2, 3], [4, 5, 6], [0, 7, 8]] 1,
         SEvent.create [[1, 2, 3], [4, 5, 6], [7, 8, 0]] 1,
         SEvent.push 1 [[1, 2, 3], [4, 5, 6], [7, 8, 0]] 1,
         SEvent.create [[1, 2, 3], [4, 0, 6], [7, 5, 8]] 1,
         SEvent.push 3 [[1, 2, 3], [4, 0, 6], [7, 5, 8]] 1,
         SEvent.pop 1 [[1, 2, 3], [4, 5, 6], [7, 8, 0]] 1] ∧
      (3 : Nat) = pushCount
        [SEvent.pop 0 [[1, 2, 3], [4, 5, 6], [7, 0, 8]] 0,
         SEvent.create [[1, 2, 3], [4, 5, 6], [0, 7, 8]] 1,
         SEvent.push 3 [[1, 2, 3], [4, 5, 6], [0, 7, 8]] 1,
         SEvent.create [[1, 2, 3], [4, 5, 6], [7, 8, 0]] 1,
         SEvent.push 1 [[1, 2, 3], [4, 5, 6], [7, 8, 0]] 1,
         SEvent.create [[1, 2, 3], [4, 0, 6], [7, 5, 8]] 1,
         SEvent.push 3 [[1, 2, 3], [4, 0, 6], [7, 5, 8]] 1,
         SEvent.pop 1 [[1, 2, 3], [4, 5, 6], [7, 8, 0]] 1]) ∧
    ((2 : Nat) = popCount
        [SEvent.pop 1 [[1, 2, 3, 4], [5, 6, 7, 8], [9, 10, 11, 12], [13, 14, 0, 15]] 0,
         SEvent.create [[1, 2, 3, 4], [5, 6, 7, 8], [9, 10, 11, 12], [13, 0, 14, 15]] 1,
         SEvent.push 3 [[1, 2, 3, 4], [5, 6, 7, 8], [9, 10, 11, 12], [13, 0, 14, 15]] 1,
         SEvent.create [[1, 2, 3, 4], [5, 6, 7, 8], [9, 10, 11, 12], [13, 14, 15, 0]] 1,
         SEvent.push 1 [[1, 2, 3, 4], [5, 6, 7, 8], [9, 10, 11, 12], [13, 14, 15, 0]] 1,
         SEvent.create [[1, 2, 3, 4], [5, 6, 7, 8], [9, 10, 0, 12], [13, 14, 11, 15]] 1,
         SEvent.push 3 [[1, 2, 3, 4], [5, 6, 7, 8], [9, 10, 0, 12], [13, 14, 11, 15]] 1,
         SEvent.pop 1 [[1, 2, 3, 4], [5, 6, 7, 8], [9, 10, 11, 12], [13, 14, 15, 0]] 1] ∧
      (3 : Nat) = createCount
        [SEvent.pop 1 [[1, 2, 3, 4], [5, 6, 7, 8], [9, 10, 11, 12], [13, 14, 0, 15]] 0,
         SEvent.create [[1, 2, 3, 4], [5, 6, 7, 8], [9, 10, 11, 12], [13, 0, 14, 15]] 1,
         SEvent.push 3 [[1, 2, 3, 4], [5, 6, 7, 8], [9, 10, 11, 12], [13, 0, 14, 15]] 1,
         SEvent.create [[1, 2, 3, 4], [5, 6, 7, 8], [9, 10, 11, 12], [13, 14, 15, 0]] 1,
         SEvent.push 1 [[1, 2, 3, 4], [5, 6, 7, 8], [9, 10, 11, 12], [13, 14, 15, 0]] 1,
         SEvent.create [[1, 2, 3, 4], [5, 6, 7, 8], [9, 10, 0, 12], [13, 14, 11, 15]] 1,
         SEvent.push 3 [[1, 2, 3, 4], [5, 6, 7, 8], [9, 10, 0, 12], [13, 14, 11, 15]] 1,
         SEvent.pop 1 [[1, 2, 3, 4], [5, 6, 7, 8], [9, 10, 11, 12], [13, 14, 15, 0]] 1]) :=
  ⟨c2_amended_returned_counters.1 ⟨[[1, 2, 3], [4, 5, 6], [7, 0, 8]], 0⟩
      h2_manhattan_distance8 5 2 3 _ (by decide),
    c2_amended_returned_counters.2
      ⟨[[1, 2, 3, 4], [5, 6, 7, 8], [9, 10, 11, 12], [13, 14, 0, 15]], 0⟩
      h1_misplaced_tiles15 5 2 3 _ (by decide)⟩

/-!
## C3: the push policy
-/

@[simp] theorem pushedList_nil : pushedList [] = [] := rfl

@[simp] theorem pushedList_cons_pop (f : Nat) (st : GState) (g : Nat)
    (evs : List SEvent) :
    pushedList (SEvent.pop f st g :: evs) = pushedList evs := by
  simp [pushedList, List.filterMap_cons]

@[simp] theorem pushedList_cons_create (st : GState) (g : Nat)
    (evs : List SEvent) :
    pushedList (SEvent.create st g :: evs) = pushedList evs := by
  simp [pushedList, List.filterMap_cons]

@[simp] theorem pushedList_cons_push (f : Nat) (st : GState) (g : Nat)
    (evs : List SEvent) :
    pushedList (SEvent.push f st g :: evs) = (st, g) :: pushedList evs := by
  simp [pushedList, List.filterMap_cons]

/-- Modelled from the claim (reference policy): push a successor iff its
state has never been recorded in the visited map or its g strictly improves
the recorded g, recording the new best g; successors with a worse or equal
g are discarded.  Returns the `(state, g)` pairs pushed, in order. -/
def claimedPushPolicy (visited : List (GState × Nat)) :
    List Node → List (GState × Nat)
  | [] => []
  | c :: rest =>
    match lookupAssoc c.state visited with
    | none =>
      (c.state, c.cost) ::
        claimedPushPolicy (updateAssoc c.state c.cost visited) rest
    | some g0 =>
      if c.cost < g0 then
        (c.state, c.cost) ::
          claimedPushPolicy (updateAssoc c.state c.cost visited) rest
      else
        claimedPushPolicy visited rest

/-- C3 fails on the 8-puzzle: in the run from `((1,2,3),(4,0,8),(7,6,5))`
with `h1_misplaced_tiles`, the goal state is pushed at position 27 of the
push log with g = 6 and pushed again at position 29 with the same g = 6;
under the claimed policy the second successor (g not strictly smaller than
the recorded 6) would have been discarded without being pushed. -/
theorem c3_counterexample_equal_g_repushed :
    (pushedList (runEvents8 ⟨[[1, 2, 3], [4, 0, 8], [7, 6, 5]], 0⟩
        h1_misplaced_tiles8 20)).get? 27 =
      some ([[1, 2, 3], [4, 5, 6], [7, 8, 0]], 6) ∧
    (pushedList (runEvents8 ⟨[[1, 2, 3], [4, 0, 8], [7, 6, 5]], 0⟩
        h1_misplaced_tiles8 20)).get? 29 =
      some ([[1, 2, 3], [4, 5, 6], [7, 8, 0]], 6) ∧
    (27 : Nat) < 29 ∧ (6 : Nat) ≤ 6 :=
  ⟨by decide, by decide, by decide, by decide⟩

/-- C3 amended: the 15-puzzle expansion pushes exactly the successors the
claimed policy admits (never recorded, or strictly smaller g than recorded,
with the map evolving over the successors of one expansion).  The 8-puzzle
expansion instead pushes exactly the successors whose state is not in its
closed `visited` set — no g-value is consulted, so a successor whose state
was pushed before with an equal or better g is pushed again. -/
theorem c3_amended_push_policy :
    (∀ (heur : GState → Nat) (openq : List (Nat × Node))
      (visited : List (GState × Nat)) (children : List Node),
      pushedList (expand15 heur openq visited children).evs =
        claimedPushPolicy visited children) ∧
    (∀ (heur : GState → Nat) (visited : List GState)
      (openq : List (Nat × Node)) (children : List Node),
      pushedList (expand8 heur visited openq children).evs =
        (children.filter (fun c => decide (c.state ∉ visited))).map
          (fun c => (c.state, c.cost))) := by
  constructor
  · intro heur openq visited children
    induction children generalizing openq visited with
    | nil => simp [expand15, claimedPushPolicy]
    | cons child rest ih =>
      rcases hl : lookupAssoc child.state visited with _ | g0
      · simp [expand15, claimedPushPolicy, hl, ih]
      · by_cases hg : child.cost < g0
        · simp [expand15, claimedPushPolicy, hl, hg, ih]
        · simp [expand15, claimedPushPolicy, hl, hg, ih]
  · intro heur visited openq children
    induction children generalizing openq with
    | nil => simp [expand8]
    | cons child rest ih =>
      by_cases h : child.state ∈ visited
      · simp [expand8, h, ih]
      · simp [expand8, h, ih]

/-!
## C5: `find_blank`

Characterization of the blank scan, and uniqueness of the zero cell in
grids whose flattening contains exactly one `0`.
-/

/-- In-bounds `getD` is `getElem`. -/
theorem getD_eq_get (l : List α) (d : α) (i : Nat) (h : i < l.length) :
    l.getD i d = l[i] := by
  simp [List.getD_eq_getElem?_getD, List.getElem?_eq_getElem h]

/-- An in-bounds `getD` value is a member. -/
theorem getD_mem (l : List α) (d : α) (i : Nat) (h : i < l.length) :
    l.getD i d ∈ l := by
  rw [getD_eq_get l d i h]
  exact List.getElem_mem h

theorem findZeroIdx_eq_none (row : List Nat) :
    findZeroIdx row = none ↔ 0 ∉ row := by
  induction row with
  | nil => simp [findZeroIdx]
  | cons v rest ih =>
    by_cases hv : v = 0
    · subst hv; simp [findZeroIdx]
    · rw [findZeroIdx, if_neg hv, Option.map_eq_none', ih]
      have h0v : ¬ (0 : Nat) = v := fun h => hv h.symm
      simp [List.mem_cons, h0v]

theorem findZeroIdx_some (row : List Nat) :
    ∀ c, findZeroIdx row = some c → c < row.length ∧ row.getD c 0 = 0 := by
  induction row with
  | nil => intro c h; simp [findZeroIdx] at h
  | cons v rest ih =>
    intro c h
    by_cases hv : v = 0
    · subst hv
      simp [findZeroIdx] at h
      subst h
      simp
    · simp [findZeroIdx, hv] at h
      obtain ⟨c2, hc2, hcc⟩ := h
      obtain ⟨hlt, hz⟩ := ih c2 hc2
      subst hcc
      constructor
      · simp only [List.length_cons]
        omega
      · rw [List.getD_cons_succ]
        exact hz

theorem findBlankAux_eq_none (s : List (List Nat)) :
    ∀ r0, findBlankAux s r0 = none ↔ ∀ row ∈ s, 0 ∉ row := by
  induction s with
  | nil => intro r0; simp [findBlankAux]
  | cons row rest ih =>
    intro r0
    rcases hz : findZeroIdx row with _ | c
    · have h0 : (0 : Nat) ∉ row := (findZeroIdx_eq_none row).mp hz
      simp only [findBlankAux, hz]
      rw [ih (r0 + 1)]
      constructor
      · intro h row2 hrow2
        rcases List.mem_cons.mp hrow2 with h1 | h2
        · subst h1; exact h0
        · exact h row2 h2
      · intro h row2 hrow2
        exact h row2 (List.mem_cons_of_mem _ hrow2)
    · obtain ⟨hlt, h0⟩ := findZeroIdx_some row c hz
      have hm : (0 : Nat) ∈ row := by
        have := getD_mem row 0 c hlt
        rwa [h0] at this
      simp only [findBlankAux, hz]
      constructor
      · intro h
        exact absurd h (by simp)
      · intro h
        exact absurd hm (h row (List.mem_cons_self _ _))

theorem findBlankAux_some (s : List (List Nat)) :
    ∀ r0 p, findBlankAux s r0 = some p →
      ∃ i, p.1 = r0 + i ∧ i < s.length ∧
        findZeroIdx (s.getD i []) = some p.2 := by
  induction s with
  | nil => intro r0 p h; simp [findBlankAux] at h
  | cons row rest ih =>
    intro r0 p h
    rcases hz : findZeroIdx row with _ | c
    · rw [findBlankAux, hz] at h
      obtain ⟨i, hi, hlen, hfz⟩ := ih (r0 + 1) p h
      exact ⟨i + 1, by omega, by simpa using hlen, by simpa using hfz⟩
    · rw [findBlankAux, hz] at h
      obtain ⟨h1, h2⟩ := Prod.mk.injEq .. ▸ (Option.some.injEq .. ▸ h)
      exact ⟨0, by omega, by simp, by simp [← h2, hz]⟩

/-- A successful `find_blank` returns an in-bounds position holding `0`. -/
theorem findBlank_some_spec (s : GState) (r c : Nat)
    (h : findBlank s = some (r, c)) :
    r < s.length ∧ c < (s.getD r []).length ∧ getCell s r c = 0 := by
  obtain ⟨i, hi, hlen, hfz⟩ := findBlankAux_some s 0 (r, c) h
  have hr : r = i := by omega
  subst hr
  obtain ⟨hlt, h0⟩ := findZeroIdx_some _ _ hfz
  exact ⟨hlen, hlt, h0⟩

/-- If some cell is `0`, `find_blank` succeeds. -/
theorem findBlank_isSome (s : GState) (h : (0 : Nat) ∈ s.flatten) :
    (findBlank s).isSome := by
  rcases hfb : findBlank s with _ | p
  · obtain ⟨row, hrow, h0⟩ := List.mem_flatten.mp h
    exact absurd ((findBlankAux_eq_none s 0).mp hfb row hrow) (by simpa using h0)
  · rfl

theorem le_sum_of_mem (l : List Nat) (a : Nat) (h : a ∈ l) : a ≤ l.sum := by
  induction l with
  | nil => simp at h
  | cons x t ih =>
    rcases List.mem_cons.mp h with h1 | h2
    · subst h1; simp
    · have := ih h2
      simp
      omega

theorem two_getD_le_sum (l : List Nat) :
    ∀ i j, i < j → j < l.length → l.getD i 0 + l.getD j 0 ≤ l.sum := by
  induction l with
  | nil => intro i j _ hj; simp at hj
  | cons x t ih =>
    intro i j hij hj
    rcases i with _ | i2
    · rcases j with _ | j2
      · omega
      · have hjt : j2 < t.length := by
          simp only [List.length_cons] at hj; omega
        have h1 : t.getD j2 0 ≤ t.sum :=
          le_sum_of_mem t _ (getD_mem t 0 j2 hjt)
        rw [List.getD_cons_zero, List.getD_cons_succ, List.sum_cons]
        omega
    · rcases j with _ | j2
      · omega
      · have h1 := ih i2 j2 (by omega)
          (by simp only [List.length_cons] at hj; omega)
        rw [List.getD_cons_succ, List.getD_cons_succ, List.sum_cons]
        omega

theorem two_idx_le_count (l : List Nat) (a : Nat) :
    ∀ i j, i < j → j < l.length → l.getD i 0 = a → l.getD j 0 = a →
      2 ≤ l.count a := by
  induction l with
  | nil => intro i j _ hj; simp at hj
  | cons x t ih =>
    intro i j hij hj hi0 hj0
    rcases i with _ | i2
    · rcases j with _ | j2
      · omega
      · have hx : x = a := by rwa [List.getD_cons_zero] at hi0
        have hjt : j2 < t.length := by
          simp only [List.length_cons] at hj; omega
        have hj0s : t.getD j2 0 = a := by rwa [List.getD_cons_succ] at hj0
        have hmem : a ∈ t := by
          have := getD_mem t 0 j2 hjt
          rwa [hj0s] at this
        have hpos : 0 < t.count a := List.count_pos_iff.mpr hmem
        subst hx
        rw [List.count_cons_self]
        omega
    · rcases j with _ | j2
      · omega
      · have hi0s : t.getD i2 0 = a := by rwa [List.getD_cons_succ] at hi0
        have hj0s : t.getD j2 0 = a := by rwa [List.getD_cons_succ] at hj0
        have h2 := ih i2 j2 (by omega)
          (by simp only [List.length_cons] at hj; omega) hi0s hj0s
        calc (2 : Nat) ≤ t.count a := h2
          _ ≤ (x :: t).count a := by
              rw [List.count_cons]
              exact Nat.le_add_right _ _

/-- In a grid whose flattening contains exactly one `0`, the zero cell is
unique. -/
theorem blank_unique (s : GState) (r c r2 c2 : Nat)
    (h1 : s.flatten.count 0 = 1)
    (hr : r < s.length) (hc : c < (s.getD r []).length)
    (hz : getCell s r c = 0)
    (hr2 : r2 < s.length) (hc2 : c2 < (s.getD r2 []).length)
    (hz2 : getCell s r2 c2 = 0) : r = r2 ∧ c = c2 := by
  have hget : ∀ i, i < s.length → (s.map (List.count 0)).getD i 0 =
      (s.getD i []).count 0 := by
    intro i hi
    rw [getD_eq_get _ _ i (by simpa using hi), getD_eq_get _ _ i hi]
    simp
  have hflat : s.flatten.count 0 = (s.map (List.count 0)).sum :=
    List.count_flatten 0 s
  by_cases hrr : r = r2
  · subst hrr
    by_cases hcc : c = c2
    · exact ⟨rfl, hcc⟩
    · exfalso
      have h2 : 2 ≤ (s.getD r []).count 0 := by
        rcases Nat.lt_or_ge c c2 with hlt | hge
        · exact two_idx_le_count _ 0 c c2 hlt hc2 hz hz2
        · exact two_idx_le_count _ 0 c2 c (by omega) hc hz2 hz
      have hcnt : (s.getD r []).count 0 ≤ (s.map (List.count 0)).sum := by
        apply le_sum_of_mem
        rw [← hget r hr]
        exact getD_mem _ 0 r (by simpa using hr)
      omega
  · exfalso
    have m1 : 0 < (s.getD r []).count 0 :=
      List.count_pos_iff.mpr (hz ▸ getD_mem _ 0 c hc)
    have m2 : 0 < (s.getD r2 []).count 0 :=
      List.count_pos_iff.mpr (hz2 ▸ getD_mem _ 0 c2 hc2)
    have hsum : (s.getD r []).count 0 + (s.getD r2 []).count 0 ≤
        (s.map (List.count 0)).sum := by
      rcases Nat.lt_or_ge r r2 with hlt | hge
      · have := two_getD_le_sum (s.map (List.count 0)) r r2 hlt
          (by simpa using hr2)
        rwa [hget r hr, hget r2 hr2] at this
      · have := two_getD_le_sum (s.map (List.count 0)) r2 r (by omega)
          (by simpa using hr)
        rw [hget r hr, hget r2 hr2] at this
        omega
    omega

/-- C5 fails for grids with more than one zero: `find_blank` does not fail,
it returns the position of the first zero.  On `((0,0,1),(2,3,4),(5,6,7))`,
which contains two zeros, it returns `(0, 0)`. -/
theorem c5_counterexample_two_zeros :
    findBlank [[0, 0, 1], [2, 3, 4], [5, 6, 7]] = some (0, 0) ∧
    (List.flatten [[0, 0, 1], [2, 3, 4], [5, 6, 7]]).count 0 = 2 :=
  ⟨by decide, by decide⟩

/-- C5 amended: `find_blank` returns `none` (the Python `None`, the only
failure signal — there is no `InvalidState` error) when the grid contains no
zero, and returns the position of the first zero in row-major order
otherwise; in particular, for a grid with exactly one zero it returns that
zero's position.  Grids with several zeros are not rejected
(`c5_counterexample_two_zeros`). -/
theorem c5_amended_find_blank (s : GState) (r c : Nat) :
    ((0 : Nat) ∉ s.flatten → findBlank s = none) ∧
    (s.flatten.count 0 = 1 → r < s.length → c < (s.getD r []).length →
      getCell s r c = 0 → findBlank s = some (r, c)) := by
  constructor
  · intro h
    rcases hfb : findBlank s with _ | ⟨pr, pc⟩
    · rfl
    · obtain ⟨hr, hc, hz⟩ := findBlank_some_spec s pr pc hfb
      exact absurd (List.mem_flatten_of_mem (getD_mem s [] pr hr)
        (by rw [← hz]; exact getD_mem _ 0 pc hc)) h
  · intro hcount hr hc hz
    have hmem : (0 : Nat) ∈ s.flatten := List.count_pos_iff.mp (by omega)
    have hsome := findBlank_isSome s hmem
    rcases hfb : findBlank s with _ | ⟨pr, pc⟩
    · rw [hfb] at hsome
      exact absurd hsome (by simp)
    · obtain ⟨hr2, hc2, hz2⟩ := findBlank_some_spec s pr pc hfb
      obtain ⟨he1, he2⟩ := blank_unique s pr pc r c hcount hr2 hc2 hz2 hr hc hz
      rw [he1, he2]

/-- Witness for `c5_amended_find_blank`: a zero-free grid yields `none`; the
goal grid (one zero, at `(2,2)`) yields `some (2, 2)`. -/
theorem c5_amended_find_blank_witness :
    findBlank [[1, 2, 3], [4, 5, 6], [7, 8, 9]] = none ∧
    findBlank GOAL8 = some (2, 2) :=
  ⟨(c5_amended_find_blank [[1, 2, 3], [4, 5, 6], [7, 8, 9]] 0 0).1 (by decide),
   (c5_amended_find_blank GOAL8 2 2).2 (by decide) (by decide) (by decide)
     (by decide)⟩

/-!
## C7: legal moves preserve the tile multiset

The key algebraic fact is that overwriting one cell trades the old value
for the new one in the flattened multiset; the simultaneous swap of two
distinct cells then leaves the multiset unchanged.
-/

/-- Setting index `i` trades the old element for the new one (stated
additively, so no truncated subtraction is needed). -/
theorem multiset_set_trade (l : List Nat) :
    ∀ i v, i < l.length →
      ((l.set i v : List Nat) : Multiset Nat) + {l.getD i 0} =
        (l : Multiset Nat) + {v} := by
  induction l with
  | nil => intro i v h; simp at h
  | cons x t ih =>
    intro i v h
    rcases i with _ | i2
    · rw [List.set_cons_zero, List.getD_cons_zero,
        ← Multiset.cons_coe, ← Multiset.cons_coe,
        ← Multiset.singleton_add, ← Multiset.singleton_add]
      abel
    · rw [List.set_cons_succ, List.getD_cons_succ,
        ← Multiset.cons_coe, ← Multiset.cons_coe,
        ← Multiset.singleton_add, ← Multiset.singleton_add]
      have h2 := ih i2 v (by simp only [List.length_cons] at h; omega)
      rw [add_assoc, h2, add_assoc]

/-- Replacing row `i` trades the old row for the new one in the flattened
multiset. -/
theorem multiset_flatten_set_trade (L : List (List Nat)) :
    ∀ i w, i < L.length →
      (((L.set i w).flatten : List Nat) : Multiset Nat) +
          ((L.getD i [] : List Nat) : Multiset Nat) =
        ((L.flatten : List Nat) : Multiset Nat) + (w : Multiset Nat) := by
  induction L with
  | nil => intro i w h; simp at h
  | cons row T ih =>
    intro i w h
    rcases i with _ | i2
    · rw [List.set_cons_zero, List.getD_cons_zero, List.flatten_cons,
        List.flatten_cons, ← Multiset.coe_add, ← Multiset.coe_add]
      abel
    · rw [List.set_cons_succ, List.getD_cons_succ, List.flatten_cons,
        List.flatten_cons, ← Multiset.coe_add, ← Multiset.coe_add]
      have h2 := ih i2 w (by simp only [List.length_cons] at h; omega)
      rw [add_assoc, h2, add_assoc]

/-- Reading `getD` after `set` at a different index. -/
theorem getD_set_ne (L : List α) (i j : Nat) (w d : α) (hij : i ≠ j)
    (hj : j < L.length) : (L.set i w).getD j d = L.getD j d := by
  rw [getD_eq_get _ _ j (by simpa using hj), getD_eq_get _ _ j hj]
  exact List.getElem_set_ne hij _

/-- Reading `getD` after `set` at the same index. -/
theorem getD_set_self (L : List α) (i : Nat) (w d : α) (hi : i < L.length) :
    (L.set i w).getD i d = w := by
  rw [getD_eq_get _ _ i (by simpa using hi)]
  exact List.getElem_set_self (by simpa using hi)

/-- Swapping two distinct in-bounds cells leaves the flattened multiset
unchanged. -/
theorem swapCells_multiset (n : Nat) (s : GState) (hs : Shaped n s)
    (r c r2 c2 : Nat) (hr : r < n) (hc : c < n) (hr2 : r2 < n) (hc2 : c2 < n)
    (hne : ¬(r = r2 ∧ c = c2)) :
    ((swapCells s r c r2 c2).flatten : Multiset Nat) =
      (s.flatten : Multiset Nat) := by
  obtain ⟨hlen, hrows⟩ := hs
  have hrs : r < s.length := by omega
  have hr2s : r2 < s.length := by omega
  have hrowr : (s.getD r []).length = n := hrows _ (getD_mem s [] r hrs)
  have hrowr2 : (s.getD r2 []).length = n := hrows _ (getD_mem s [] r2 hr2s)
  by_cases hrr : r = r2
  · subst hrr
    have hcc : c ≠ c2 := fun h => hne ⟨rfl, h⟩
    -- both writes land in row r
    have hres : swapCells s r c r c2 =
        s.set r (((s.getD r []).set c (getCell s r c2)).set c2 (getCell s r c)) := by
      unfold swapCells setCell
      rw [getD_set_self s r _ [] hrs, List.set_set]
    refine Multiset.ext.mpr (fun a => ?_)
    have e1 := congrArg (Multiset.count a)
      (multiset_flatten_set_trade s r
        (((s.getD r []).set c (getCell s r c2)).set c2 (getCell s r c)) hrs)
    have e2 := congrArg (Multiset.count a)
      (multiset_set_trade ((s.getD r []).set c (getCell s r c2)) c2
        (getCell s r c) (by rw [List.length_set]; omega))
    have e3 := congrArg (Multiset.count a)
      (multiset_set_trade (s.getD r []) c (getCell s r c2) (by omega))
    rw [getD_set_ne _ c c2 _ _ hcc (by omega)] at e2
    have hy : (s.getD r []).getD c 0 = getCell s r c := rfl
    have hx : (s.getD r []).getD c2 0 = getCell s r c2 := rfl
    rw [hy] at e3
    rw [hx] at e2
    rw [hres]
    simp only [Multiset.count_add] at e1 e2 e3 ⊢
    omega
  · -- the writes land in different rows
    have hres : swapCells s r c r2 c2 =
        (s.set r ((s.getD r []).set c (getCell s r2 c2))).set r2
          ((s.getD r2 []).set c2 (getCell s r c)) := by
      unfold swapCells setCell
      rw [getD_set_ne s r r2 _ [] hrr hr2s]
    refine Multiset.ext.mpr (fun a => ?_)
    have e1 := congrArg (Multiset.count a)
      (multiset_flatten_set_trade (s.set r ((s.getD r []).set c (getCell s r2 c2)))
        r2 ((s.getD r2 []).set c2 (getCell s r c)) (by rw [List.length_set]; omega))
    have e2 := congrArg (Multiset.count a)
      (multiset_flatten_set_trade s r ((s.getD r []).set c (getCell s r2 c2)) hrs)
    have e3 := congrArg (Multiset.count a)
      (multiset_set_trade (s.getD r []) c (getCell s r2 c2) (by omega))
    have e4 := congrArg (Multiset.count a)
      (multiset_set_trade (s.getD r2 []) c2 (getCell s r c) (by omega))
    rw [getD_set_ne s r r2 _ [] hrr hr2s] at e1
    have hy : (s.getD r []).getD c 0 = getCell s r c := rfl
    have hx : (s.getD r2 []).getD c2 0 = getCell s r2 c2 := rfl
    rw [hy] at e3
    rw [hx] at e4
    rw [hres]
    simp only [Multiset.count_add] at e1 e2 e3 e4 ⊢
    omega

/-- After the swap, the first swapped cell holds the value of the second. -/
theorem getCell_swap (n : Nat) (s : GState) (hs : Shaped n s)
    (r c r2 c2 : Nat) (hr : r < n) (hc : c < n) (hr2 : r2 < n) (_hc2 : c2 < n)
    (hne : ¬(r = r2 ∧ c = c2)) :
    getCell (swapCells s r c r2 c2) r c = getCell s r2 c2 := by
  obtain ⟨hlen, hrows⟩ := hs
  have hrs : r < s.length := by omega
  have hr2s : r2 < s.length := by omega
  have hrowr : (s.getD r []).length = n := hrows _ (getD_mem s [] r hrs)
  by_cases hrr : r = r2
  · subst hrr
    have hcc : c ≠ c2 := fun h => hne ⟨rfl, h⟩
    have hres : swapCells s r c r c2 =
        s.set r (((s.getD r []).set c (getCell s r c2)).set c2 (getCell s r c)) := by
      unfold swapCells setCell
      rw [getD_set_self s r _ [] hrs, List.set_set]
    rw [hres]
    unfold getCell
    rw [getD_set_self s r _ [] hrs,
      getD_set_ne _ c2 c _ _ (fun h => hcc h.symm) (by rw [List.length_set]; omega),
      getD_set_self _ c _ _ (by omega)]
  · have hres : swapCells s r c r2 c2 =
        (s.set r ((s.getD r []).set c (getCell s r2 c2))).set r2
          ((s.getD r2 []).set c2 (getCell s r c)) := by
      unfold swapCells setCell
      rw [getD_set_ne s r r2 _ [] hrr hr2s]
    rw [hres]
    unfold getCell
    rw [getD_set_ne _ r2 r _ [] (fun h => hrr h.symm) (by rw [List.length_set]; omega),
      getD_set_self s r _ [] hrs, getD_set_self _ c _ _ (by omega)]

/-- Writing a cell of an in-bounds row preserves the grid shape. -/
theorem shaped_setCell (n : Nat) (s : GState) (r c : Nat) (v : Nat)
    (hs : Shaped n s) (hr : r < n) : Shaped n (setCell s r c v) := by
  obtain ⟨hlen, hrows⟩ := hs
  constructor
  · simpa [setCell] using hlen
  · intro row hrow
    rcases List.mem_or_eq_of_mem_set hrow with h | h
    · exact hrows row h
    · subst h
      rw [List.length_set]
      exact hrows _ (getD_mem s [] r (by omega))

/-- Every successor produced by `possible_moves` is the parent with blank
and one distinct in-bounds cell swapped, at cost `g + 1`. -/
theorem possibleMoves_mem_decomp (n : Nat) (nd child : Node)
    (h : child ∈ possibleMoves n nd) :
    ∃ r c r2 c2, findBlank nd.state = some (r, c) ∧ r2 < n ∧ c2 < n ∧
      ¬(r = r2 ∧ c = c2) ∧
      child = ⟨swapCells nd.state r c r2 c2, nd.cost + 1⟩ := by
  unfold possibleMoves at h
  rcases hfb : findBlank nd.state with _ | ⟨r, c⟩ <;> rw [hfb] at h
  · simp at h
  · rcases List.mem_filterMap.mp h with ⟨d, hd, hsome⟩
    dsimp only at hsome
    by_cases hcond : 0 ≤ (r : Int) + d.1 ∧ (r : Int) + d.1 < (n : Int) ∧
        0 ≤ (c : Int) + d.2 ∧ (c : Int) + d.2 < (n : Int)
    · rw [if_pos hcond] at hsome
      obtain ⟨hb1, hb2, hb3, hb4⟩ := hcond
      refine ⟨r, c, ((r : Int) + d.1).toNat, ((c : Int) + d.2).toNat, rfl,
        by omega, by omega, ?_, (Option.some.injEq .. ▸ hsome).symm⟩
      simp only [movesList, List.mem_cons, List.not_mem_nil, or_false] at hd
      rcases hd with rfl | rfl | rfl | rfl <;> simp only [] <;> omega
    · rw [if_neg hcond] at hsome
      cases hsome

/-- C7: on an `n × n` state with exactly one zero and tile multiset
`{0, ..., n²-1}` (both source files instantiate `n = 3` resp. `n = 4`),
every successor produced by `possible_moves` is again an `n × n` grid with
the same tile multiset and exactly one zero, and its state differs from the
input state — a move builds a new state; the input, an immutable value in
this embedding as the Python tuples are, is untouched. -/
theorem c7_possible_moves_preserve_invariant (n : Nat) (nd : Node)
    (hsh : Shaped n nd.state)
    (hms : (nd.state.flatten : Multiset Nat) =
      ((List.range (n * n) : List Nat) : Multiset Nat)) :
    ∀ child ∈ possibleMoves n nd,
      Shaped n child.state ∧
      (child.state.flatten : Multiset Nat) =
        ((List.range (n * n) : List Nat) : Multiset Nat) ∧
      child.state.flatten.count 0 = 1 ∧
      child.state ≠ nd.state := by
  intro child hchild
  obtain ⟨r, c, r2, c2, hfb, hr2, hc2, hne, hceq⟩ :=
    possibleMoves_mem_decomp n nd child hchild
  obtain ⟨hr_s, hc_row, hz⟩ := findBlank_some_spec _ _ _ hfb
  obtain ⟨hlen, hrows⟩ := hsh
  have hr : r < n := by omega
  have hc : c < n := by
    rw [hrows _ (getD_mem _ [] r hr_s)] at hc_row
    exact hc_row
  have hn1 : 0 < n := by omega
  have hcount : nd.state.flatten.count 0 = 1 := by
    have hcc : nd.state.flatten.count 0 = (List.range (n * n)).count 0 := by
      rw [← Multiset.coe_count, ← Multiset.coe_count, hms]
    rw [hcc]
    exact List.count_eq_one_of_mem (List.nodup_range _)
      (List.mem_range.mpr (Nat.mul_pos hn1 hn1))
  have hms2 : ((swapCells nd.state r c r2 c2).flatten : Multiset Nat) =
      (nd.state.flatten : Multiset Nat) :=
    swapCells_multiset n nd.state ⟨hlen, hrows⟩ r c r2 c2 hr hc hr2 hc2 hne
  have hstate : child.state = swapCells nd.state r c r2 c2 := by rw [hceq]
  refine ⟨?_, ?_, ?_, ?_⟩
  · rw [hstate]
    exact shaped_setCell n _ r2 c2 _
      (shaped_setCell n nd.state r c _ ⟨hlen, hrows⟩ hr) hr2
  · rw [hstate, hms2, hms]
  · rw [hstate]
    have : (swapCells nd.state r c r2 c2).flatten.count 0 =
        nd.state.flatten.count 0 := by
      rw [← Multiset.coe_count, ← Multiset.coe_count, hms2]
    rw [this, hcount]
  · have hx2 : getCell (swapCells nd.state r c r2 c2) r c =
        getCell nd.state r2 c2 :=
      getCell_swap n nd.state ⟨hlen, hrows⟩ r c r2 c2 hr hc hr2 hc2 hne
    have hx2ne : getCell nd.state r2 c2 ≠ 0 := by
      intro h0
      have hr2s : r2 < nd.state.length := by omega
      have hc2row : c2 < (nd.state.getD r2 []).length := by
        rw [hrows _ (getD_mem _ [] r2 hr2s)]
        exact hc2
      obtain ⟨he1, he2⟩ := blank_unique nd.state r c r2 c2 hcount
        hr_s hc_row hz hr2s hc2row h0
      exact hne ⟨he1, he2⟩
    rw [hstate]
    intro heq
    rw [heq] at hx2
    exact hx2ne (hx2 ▸ hz)

/-- Witness for `c7_possible_moves_preserve_invariant`: the left-move
successor of the 8-puzzle goal state. -/
theorem c7_possible_moves_preserve_invariant_witness :
    Shaped 3 [[1, 2, 3], [4, 5, 6], [7, 0, 8]] ∧
    (([[1, 2, 3], [4, 5, 6], [7, 0, 8]] : GState).flatten : Multiset Nat) =
      ((List.range (3 * 3) : List Nat) : Multiset Nat) ∧
    ([[1, 2, 3], [4, 5, 6], [7, 0, 8]] : GState).flatten.count 0 = 1 ∧
    ([[1, 2, 3], [4, 5, 6], [7, 0, 8]] : GState) ≠ GOAL8 :=
  c7_possible_moves_preserve_invariant 3 ⟨GOAL8, 0⟩ (by decide) (by decide)
    ⟨[[1, 2, 3], [4, 5, 6], [7, 0, 8]], 1⟩ (by decide)

/-!
## C8: pointwise dominance of the heuristics
-/

/-- Per-cell bound: a misplaced tile contributes at least 1 to its Manhattan
term (valid tiles only, `v < 16`; the goal grid is hard-coded). -/
theorem cell_bound_15 (r c v : Nat) (hr : r < 4) (hc : c < 4) (hv : v < 16) :
    (if v ≠ 0 ∧ v ≠ getCell GOAL15 r c then 1 else 0) ≤
      (if v ≠ 0 then absDiff ((v - 1) / 4) r + absDiff ((v - 1) % 4) c
       else 0) := by
  interval_cases r <;> interval_cases c <;> interval_cases v <;> decide

/-- Cells of a shaped grid are members of the flattening. -/
theorem getCell_mem_flatten (n : Nat) (s : GState) (hsh : Shaped n s)
    (r c : Nat) (hr : r < n) (hc : c < n) : getCell s r c ∈ s.flatten := by
  obtain ⟨hlen, hrows⟩ := hsh
  have hrs : r < s.length := by omega
  have hrow : (s.getD r []).length = n := hrows _ (getD_mem s [] r hrs)
  exact List.mem_flatten_of_mem (getD_mem s [] r hrs)
    (getD_mem _ 0 c (by omega))

/-- C8: on every valid 15-puzzle state (4×4, tile multiset {0,...,15}),
`h1_misplaced_tiles ≤ h2_manhattan_distance ≤ h3_manhattan_linear`
(Manhattan plus the nonnegative linear-conflict addition). -/
theorem c8_heuristic_dominance (s : GState) (hsh : Shaped 4 s)
    (hms : (s.flatten : Multiset Nat) =
      ((List.range 16 : List Nat) : Multiset Nat)) :
    h1_misplaced_tiles15 s ≤ h2_manhattan_distance15 s ∧
    h2_manhattan_distance15 s ≤ h3_manhattan_linear15 s := by
  have hv : ∀ r c, r < 4 → c < 4 → getCell s r c < 16 := by
    intro r c hr hc
    have hmem : getCell s r c ∈ s.flatten := getCell_mem_flatten 4 s hsh r c hr hc
    have : getCell s r c ∈ (List.range 16 : List Nat) := by
      have h2 : getCell s r c ∈ (s.flatten : Multiset Nat) :=
        Multiset.mem_coe.mpr hmem
      rw [hms] at h2
      exact Multiset.mem_coe.mp h2
    exact List.mem_range.mp this
  constructor
  · unfold h1_misplaced_tiles15 h2_manhattan_distance15
    refine Finset.sum_le_sum (fun r hr => Finset.sum_le_sum (fun c hc => ?_))
    exact cell_bound_15 r c _ (Finset.mem_range.mp hr) (Finset.mem_range.mp hc)
      (hv r c (Finset.mem_range.mp hr) (Finset.mem_range.mp hc))
  · exact Nat.le_add_right _ _

/-- Witness for `c8_heuristic_dominance`: the goal state itself, where all
three heuristics vanish. -/
theorem c8_heuristic_dominance_witness :
    h1_misplaced_tiles15 GOAL15 ≤ h2_manhattan_distance15 GOAL15 ∧
    h2_manhattan_distance15 GOAL15 ≤ h3_manhattan_linear15 GOAL15 :=
  c8_heuristic_dominance GOAL15 (by decide) (by decide)

/-!
## C9: the reachable-state samplers
-/


/-- Loop invariant of the 8-puzzle sampler: starting below the target count
with a duplicate-free, all-solvable accumulator, a successful return has
exactly `n` duplicate-free states, all passing `is_solvable`. -/
theorem createReachable8Loop_spec :
    ∀ (fuel n : Nat) (shuffles : List (List Nat)) (acc l : List GState),
      acc.length ≤ n → acc.Nodup → (∀ st ∈ acc, is_solvable8 st = true) →
      createReachable8Loop n fuel shuffles acc = some l →
      l.length = n ∧ l.Nodup ∧ ∀ st ∈ l, is_solvable8 st = true := by
  intro fuel
  induction fuel with
  | zero =>
    intro n shuffles acc l _ _ _ h
    rw [createReachable8Loop.eq_def] at h
    dsimp only at h
    cases h
  | succ fuel ih =>
    intro n shuffles acc l hlen hnd hsolv h
    rw [createReachable8Loop.eq_def] at h
    dsimp only at h
    by_cases hn : n ≤ acc.length
    · rw [if_pos hn] at h
      have hacc : acc = l := Option.some.injEq .. ▸ h
      subst hacc
      exact ⟨by omega, hnd, hsolv⟩
    · rw [if_neg hn] at h
      rcases shuffles with _ | ⟨sh, rest⟩
      · cases h
      · dsimp only at h
        by_cases hs : is_solvable8 (toGrid3 sh) = true
        · rw [if_pos hs] at h
          by_cases hmem : toGrid3 sh ∈ acc
          · rw [if_pos hmem] at h
            exact ih n rest acc l (by omega) hnd hsolv h
          · rw [if_neg hmem] at h
            refine ih n rest (acc ++ [toGrid3 sh]) l ?_ ?_ ?_ h
            · simp only [List.length_append, List.length_singleton]
              omega
            · rw [← List.concat_eq_append]
              exact hnd.concat hmem
            · intro st hst
              rcases List.mem_append.mp hst with h1 | h1
              · exact hsolv st h1
              · rw [List.mem_singleton.mp h1]
                exact hs
        · rw [if_neg hs] at h
          exact ih n rest acc l (by omega) hnd hsolv h

/-- The 15-puzzle random walk stays within the reachable set. -/
theorem walk15_reachable :
    ∀ (m : Nat) (cur : Node) (choices : List Nat),
      Reachable15 cur.state → Reachable15 (walk15 m cur choices).1.state := by
  intro m
  induction m with
  | zero => intro cur choices h; simpa [walk15] using h
  | succ m ih =>
    intro cur choices h
    rw [walk15]
    apply ih
    by_cases hlt : choices.headD 0 % (possibleMoves 4 cur).length <
        (possibleMoves 4 cur).length
    · have hmem := getD_mem (possibleMoves 4 cur) cur _ hlt
      exact Reachable15.step cur.state cur.cost _ h hmem
    · rw [List.getD_eq_getElem?_getD, List.getElem?_eq_none (by omega)]
      exact h

/-- Loop invariant of the 15-puzzle sampler. -/
theorem createReachable15Loop_spec :
    ∀ (fuel n moves : Nat) (choices : List Nat) (acc l : List GState),
      acc.length ≤ n → acc.Nodup → (∀ st ∈ acc, Reachable15 st) →
      createReachable15Loop n moves fuel choices acc = some l →
      l.length = n ∧ l.Nodup ∧ ∀ st ∈ l, Reachable15 st := by
  intro fuel
  induction fuel with
  | zero =>
    intro n moves choices acc l _ _ _ h
    rw [createReachable15Loop.eq_def] at h
    dsimp only at h
    cases h
  | succ fuel ih =>
    intro n moves choices acc l hlen hnd hreach h
    rw [createReachable15Loop.eq_def] at h
    dsimp only at h
    by_cases hn : n ≤ acc.length
    · rw [if_pos hn] at h
      have hacc : acc = l := Option.some.injEq .. ▸ h
      subst hacc
      exact ⟨by omega, hnd, hreach⟩
    · rw [if_neg hn] at h
      by_cases hmem : (walk15 moves ⟨GOAL15, 0⟩ choices).1.state ∈ acc
      · rw [if_pos hmem] at h
        exact ih n moves _ acc l (by omega) hnd hreach h
      · rw [if_neg hmem] at h
        refine ih n moves _ (acc ++ [(walk15 moves ⟨GOAL15, 0⟩ choices).1.state])
          l ?_ ?_ ?_ h
        · simp only [List.length_append, List.length_singleton]
          omega
        · rw [← List.concat_eq_append]
          exact hnd.concat hmem
        · intro st hst
          rcases List.mem_append.mp hst with h1 | h1
          · exact hreach st h1
          · rw [List.mem_singleton.mp h1]
            exact walk15_reachable moves ⟨GOAL15, 0⟩ choices Reachable15.base

/-- C9: whenever a sampler run returns (randomness is modelled as an
explicit input stream, the unbounded `while` as fuel), it returns exactly
`n` pairwise-distinct grid states; every 8-puzzle sample passes the
inversion-parity check `is_solvable` and every 15-puzzle sample is
reachable from the goal by a sequence of legal moves. -/
theorem c9_sampler_returns_distinct_solvable :
    (∀ (n : Nat) (shuffles : List (List Nat)) (fuel : Nat) (l : List GState),
      create_reachable_states8 n shuffles fuel = some l →
      l.length = n ∧ l.Nodup ∧ ∀ st ∈ l, is_solvable8 st = true) ∧
    (∀ (n moves : Nat) (choices : List Nat) (fuel : Nat) (l : List GState),
      create_reachable_states15 n moves choices fuel = some l →
      l.length = n ∧ l.Nodup ∧ ∀ st ∈ l, Reachable15 st) := by
  constructor
  · intro n shuffles fuel l h
    exact createReachable8Loop_spec fuel n shuffles [] l (by simp) (by simp)
      (by simp) h
  · intro n moves choices fuel l h
    exact createReachable15Loop_spec fuel n moves choices [] l (by simp)
      (by simp) (by simp) h

/-- Witness for `c9_sampler_returns_distinct_solvable`: one sample each.
The 8-puzzle stream holds the identity shuffle; the 15-puzzle walk takes
one step from the goal choosing neighbour 0. -/
theorem c9_sampler_returns_distinct_solvable_witness :
    (([[[0, 1, 2], [3, 4, 5], [6, 7, 8]]] : List GState).length = 1 ∧
      ([[[0, 1, 2], [3, 4, 5], [6, 7, 8]]] : List GState).Nodup ∧
      ∀ st ∈ ([[[0, 1, 2], [3, 4, 5], [6, 7, 8]]] : List GState),
        is_solvable8 st = true) ∧
    (([[[1, 2, 3, 4], [5, 6, 7, 8], [9, 10, 11, 12], [13, 14, 0, 15]]] :
        List GState).length = 1 ∧
      ([[[1, 2, 3, 4], [5, 6, 7, 8], [9, 10, 11, 12], [13, 14, 0, 15]]] :
        List GState).Nodup ∧
      ∀ st ∈ ([[[1, 2, 3, 4], [5, 6, 7, 8], [9, 10, 11, 12],
          [13, 14, 0, 15]]] : List GState), Reachable15 st) :=
  ⟨c9_sampler_returns_distinct_solvable.1 1 [[0, 1, 2, 3, 4, 5, 6, 7, 8]] 2 _
      (by decide),
    c9_sampler_returns_distinct_solvable.2 1 1 [0] 2 _ (by decide)⟩

/-!
## C6: termination of the search loops

The proof goes through three layers.  First, `heappush`/`heappop` act on
the underlying multiset of entries by adding resp. removing one element
(the sift loops only permute).  Second, every heap entry carries a cost
bounded by the number of valid states: each entry is the end of a chain of
pairwise-distinct valid states (its ancestry), so `cost + 1` never exceeds
the count of permutations of the tile multiset.  Third, the sum of
`5 ^ (bound - cost)` over the open heap strictly decreases at every
non-final iteration — a pop removes `5 ^ m` and the at most four pushed
successors contribute `4 · 5 ^ (m - 1) < 5 ^ m` — so that sum plus one is
enough fuel.
-/

/-- Generic version of the one-cell trade for arbitrary element types. -/
theorem multiset_set_trade_gen [DecidableEq α] (d : α) (l : List α) :
    ∀ (i : Nat) (v : α), i < l.length →
      ((l.set i v : List α) : Multiset α) + {l.getD i d} =
        (l : Multiset α) + {v} := by
  induction l with
  | nil => intro i v h; simp at h
  | cons x t ih =>
    intro i v h
    rcases i with _ | i2
    · rw [List.set_cons_zero, List.getD_cons_zero,
        ← Multiset.cons_coe, ← Multiset.cons_coe,
        ← Multiset.singleton_add, ← Multiset.singleton_add]
      abel
    · rw [List.set_cons_succ, List.getD_cons_succ,
        ← Multiset.cons_coe, ← Multiset.cons_coe,
        ← Multiset.singleton_add, ← Multiset.singleton_add]
      have h2 := ih i2 v (by simp only [List.length_cons] at h; omega)
      rw [add_assoc, h2, add_assoc]

/-- The `_siftdown` loop permutes the heap holding `x` for position `pos`. -/
theorem siftdownAux_multiset [DecidableEq α] (lt : α → α → Bool) (x : α)
    (sp : Nat) :
    ∀ (fuel pos : Nat) (heap : List α), pos < heap.length →
      ((siftdownAux lt x sp fuel pos heap : List α) : Multiset α) =
        ((heap.set pos x : List α) : Multiset α) := by
  intro fuel
  induction fuel with
  | zero => intro pos heap _; rfl
  | succ fuel ih =>
    intro pos heap hpos
    rw [siftdownAux]
    by_cases hsp : sp < pos
    · rw [if_pos hsp]
      by_cases hlt : lt x (heap.getD ((pos - 1) / 2) x) = true
      · rw [if_pos hlt]
        have hp2 : (pos - 1) / 2 < (heap.set pos (heap.getD ((pos - 1) / 2) x)).length := by
          rw [List.length_set]
          omega
        rw [ih ((pos - 1) / 2) _ hp2]
        have hne : pos ≠ (pos - 1) / 2 := by omega
        have hp2h : (pos - 1) / 2 < heap.length := by omega
        refine Multiset.ext.mpr (fun a => ?_)
        have t1 := congrArg (Multiset.count a)
          (multiset_set_trade_gen x heap pos (heap.getD ((pos - 1) / 2) x) hpos)
        have t2 := congrArg (Multiset.count a)
          (multiset_set_trade_gen x (heap.set pos (heap.getD ((pos - 1) / 2) x))
            ((pos - 1) / 2) x (by rw [List.length_set]; omega))
        have t3 := congrArg (Multiset.count a)
          (multiset_set_trade_gen x heap pos x hpos)
        rw [getD_set_ne heap pos ((pos - 1) / 2) _ x (fun h => hne h) hp2h] at t2
        simp only [Multiset.count_add] at t1 t2 t3 ⊢
        omega
      · rw [if_neg hlt]
    · rw [if_neg hsp]

/-- The `_siftup` loop keeps the length, keeps the final position in
bounds, and permutes the heap holding `x` for the final position. -/
theorem siftupAux_multiset [DecidableEq α] (lt : α → α → Bool) (x : α) :
    ∀ (fuel pos : Nat) (heap : List α), pos < heap.length →
      (siftupAux lt x fuel pos heap).1 <
        (siftupAux lt x fuel pos heap).2.length ∧
      (siftupAux lt x fuel pos heap).2.length = heap.length ∧
      (((siftupAux lt x fuel pos heap).2.set
          (siftupAux lt x fuel pos heap).1 x : List α) : Multiset α) =
        ((heap.set pos x : List α) : Multiset α) := by
  intro fuel
  induction fuel with
  | zero => intro pos heap hpos; exact ⟨hpos, rfl, rfl⟩
  | succ fuel ih =>
    intro pos heap hpos
    rw [siftupAux]
    by_cases hcp : 2 * pos + 1 < heap.length
    · rw [if_pos hcp]
      dsimp only
      by_cases hr : 2 * pos + 1 + 1 < heap.length ∧
          ¬ lt (heap.getD (2 * pos + 1) x) (heap.getD (2 * pos + 1 + 1) x) = true
      · rw [if_pos hr]
        have hcpl : 2 * pos + 1 + 1 < (heap.set pos (heap.getD (2 * pos + 1 + 1) x)).length := by
          rw [List.length_set]; omega
        obtain ⟨g1, g2, g3⟩ := ih (2 * pos + 1 + 1) _ hcpl
        refine ⟨g1, by rw [g2, List.length_set], ?_⟩
        rw [g3]
        have hne : pos ≠ 2 * pos + 1 + 1 := by omega
        refine Multiset.ext.mpr (fun a => ?_)
        have t1 := congrArg (Multiset.count a)
          (multiset_set_trade_gen x heap pos (heap.getD (2 * pos + 1 + 1) x) hpos)
        have t2 := congrArg (Multiset.count a)
          (multiset_set_trade_gen x (heap.set pos (heap.getD (2 * pos + 1 + 1) x))
            (2 * pos + 1 + 1) x (by rw [List.length_set]; omega))
        have t3 := congrArg (Multiset.count a)
          (multiset_set_trade_gen x heap pos x hpos)
        rw [getD_set_ne heap pos (2 * pos + 1 + 1) _ x hne (by omega)] at t2
        simp only [Multiset.count_add] at t1 t2 t3 ⊢
        omega
      · rw [if_neg hr]
        have hcpl : 2 * pos + 1 < (heap.set pos (heap.getD (2 * pos + 1) x)).length := by
          rw [List.length_set]; omega
        obtain ⟨g1, g2, g3⟩ := ih (2 * pos + 1) _ hcpl
        refine ⟨g1, by rw [g2, List.length_set], ?_⟩
        rw [g3]
        have hne : pos ≠ 2 * pos + 1 := by omega
        refine Multiset.ext.mpr (fun a => ?_)
        have t1 := congrArg (Multiset.count a)
          (multiset_set_trade_gen x heap pos (heap.getD (2 * pos + 1) x) hpos)
        have t2 := congrArg (Multiset.count a)
          (multiset_set_trade_gen x (heap.set pos (heap.getD (2 * pos + 1) x))
            (2 * pos + 1) x (by rw [List.length_set]; omega))
        have t3 := congrArg (Multiset.count a)
          (multiset_set_trade_gen x heap pos x hpos)
        rw [getD_set_ne heap pos (2 * pos + 1) _ x hne (by omega)] at t2
        simp only [Multiset.count_add] at t1 t2 t3 ⊢
        omega
    · rw [if_neg hcp]
      exact ⟨hpos, rfl, rfl⟩

/-- The `_siftup` operation permutes the heap. -/
theorem siftup_multiset [DecidableEq α] (lt : α → α → Bool) (pos : Nat)
    (heap : List α) (d : α) (hpos : pos < heap.length) :
    ((siftup lt pos heap d : List α) : Multiset α) = (heap : Multiset α) := by
  unfold siftup
  dsimp only
  obtain ⟨g1, g2, g3⟩ :=
    siftupAux_multiset lt (heap.getD pos d) (heap.length + 1) pos heap hpos
  rw [siftdownAux_multiset lt (heap.getD pos d) pos _ _ _
    (by rw [List.length_set]; exact g1)]
  rw [List.set_set, g3]
  refine Multiset.ext.mpr (fun a => ?_)
  have t := congrArg (Multiset.count a)
    (multiset_set_trade_gen d heap pos (heap.getD pos d) hpos)
  simp only [Multiset.count_add] at t ⊢
  omega

/-- The `heappush` operation adds exactly the new entry to the heap's multiset. -/
theorem heappush_multiset [DecidableEq α] (lt : α → α → Bool)
    (heap : List α) (item : α) :
    ((heappush lt heap item : List α) : Multiset α) =
      item ::ₘ (heap : Multiset α) := by
  unfold heappush
  rw [siftdownAux_multiset lt item 0 (heap.length + 1) heap.length
    (heap ++ [item]) (by simp)]
  rw [List.set_append_right _ _ (Nat.le_refl _), Nat.sub_self]
  rw [show ([item].set 0 item) = [item] from rfl]
  rw [← Multiset.coe_add, Multiset.coe_singleton, add_comm,
    Multiset.singleton_add]

/-- The `heappop` operation removes exactly the returned entry from the heap's
multiset. -/
theorem heappop_multiset [DecidableEq α] [Inhabited α] (lt : α → α → Bool)
    (heap : List α) (e : α) (rest : List α)
    (h : heappop lt heap = some (e, rest)) :
    (heap : Multiset α) = e ::ₘ (rest : Multiset α) := by
  unfold heappop at h
  rcases heap with _ | ⟨hd, tl⟩
  · cases h
  · dsimp only at h
    rcases hr0 : (hd :: tl).dropLast with _ | ⟨r0, rtl⟩ <;> rw [hr0] at h
    · have htl : tl = [] := by
        rcases tl with _ | ⟨a, b⟩
        · rfl
        · simp [List.dropLast] at hr0
      subst htl
      simp only [List.getLastD_cons, List.getLastD_nil] at h
      obtain ⟨he, hrest⟩ := Prod.mk.injEq .. ▸ (Option.some.injEq .. ▸ h)
      rw [← he, ← hrest]
      rfl
    · obtain ⟨he, hrest⟩ := Prod.mk.injEq .. ▸ (Option.some.injEq .. ▸ h)
      have hsplit : (r0 :: rtl) ++ [(hd :: tl).getLast (by simp)] = hd :: tl := by
        rw [← hr0]
        exact List.dropLast_concat_getLast (by simp)
      have hlast : (hd :: tl).getLastD default = (hd :: tl).getLast (by simp) := by
        rw [List.getLastD_eq_getLast?, List.getLast?_eq_getLast _ (by simp)]
        rfl
      have hset : ((r0 :: rtl).set 0 ((hd :: tl).getLastD default)) =
          (hd :: tl).getLastD default :: rtl := rfl
      rw [← he, ← hrest, List.headD_cons]
      rw [siftup_multiset _ _ _ _ (by simp [hset])]
      rw [hset, hlast]
      have htail : ((rtl ++ [(hd :: tl).getLast (by simp)] : List α) : Multiset α) =
          ((hd :: tl).getLast (by simp)) ::ₘ (rtl : Multiset α) := by
        rw [← Multiset.coe_add, Multiset.coe_singleton, add_comm,
          Multiset.singleton_add]
      conv_lhs => rw [← hsplit]
      rw [List.cons_append, ← Multiset.cons_coe, ← Multiset.cons_coe, htail]

/-- Membership after a push. -/
theorem mem_heappush [DecidableEq α] (lt : α → α → Bool) (heap : List α)
    (item a : α) : a ∈ heappush lt heap item ↔ a = item ∨ a ∈ heap := by
  rw [← Multiset.mem_coe, heappush_multiset, Multiset.mem_cons,
    Multiset.mem_coe]

/-- Membership before a pop. -/
theorem mem_of_heappop [DecidableEq α] [Inhabited α] (lt : α → α → Bool)
    (heap : List α) (e : α) (rest : List α)
    (h : heappop lt heap = some (e, rest)) :
    ∀ a ∈ rest, a ∈ heap := by
  intro a ha
  rw [← Multiset.mem_coe, heappop_multiset lt heap e rest h, Multiset.mem_cons]
  exact Or.inr (Multiset.mem_coe.mpr ha)

/-- A valid `n × n` sliding-tile state: square shape and tile multiset
`{0, ..., n² - 1}`. -/
def ValidN (n : Nat) (s : GState) : Prop :=
  Shaped n s ∧ (s.flatten : Multiset Nat) =
    ((List.range (n * n) : List Nat) : Multiset Nat)

/-- Children of a valid node are valid and cost one more. -/
theorem possibleMoves_child_valid (n : Nat) (nd child : Node)
    (hv : ValidN n nd.state) (h : child ∈ possibleMoves n nd) :
    ValidN n child.state ∧ child.cost = nd.cost + 1 := by
  obtain ⟨r, c, r2, c2, hfb, hr2, hc2, hne, hceq⟩ :=
    possibleMoves_mem_decomp n nd child h
  obtain ⟨hr_s, hc_row, hz⟩ := findBlank_some_spec _ _ _ hfb
  obtain ⟨⟨hlen, hrows⟩, hms⟩ := hv
  have hr : r < n := by omega
  have hc : c < n := by
    rw [hrows _ (getD_mem _ [] r hr_s)] at hc_row
    exact hc_row
  have hstate : child.state = swapCells nd.state r c r2 c2 := by rw [hceq]
  refine ⟨⟨?_, ?_⟩, by rw [hceq]⟩
  · rw [hstate]
    exact shaped_setCell n _ r2 c2 _
      (shaped_setCell n nd.state r c _ ⟨hlen, hrows⟩ hr) hr2
  · rw [hstate,
      swapCells_multiset n nd.state ⟨hlen, hrows⟩ r c r2 c2 hr hc hr2 hc2 hne,
      hms]

/-- A 3×3 grid is rebuilt from its flattening. -/
theorem toGrid3_flatten (s : GState) (hs : Shaped 3 s) :
    toGrid3 s.flatten = s := by
  obtain ⟨hlen, hrows⟩ := hs
  obtain ⟨a, b, c, rfl⟩ : ∃ a b c, s = [a, b, c] := by
    rcases s with _ | ⟨a, _ | ⟨b, _ | ⟨c, _ | ⟨d, t⟩⟩⟩⟩
    · simp at hlen
    · simp at hlen
    · simp at hlen
    · exact ⟨a, b, c, rfl⟩
    · simp at hlen
  have ha : a.length = 3 := hrows a (by simp)
  have hb : b.length = 3 := hrows b (by simp)
  have hc : c.length = 3 := hrows c (by simp)
  have hfl : ([a, b, c] : GState).flatten = a ++ (b ++ c) := by
    simp [List.flatten_cons]
  unfold toGrid3
  rw [hfl]
  have t1 : (a ++ (b ++ c)).take 3 = a := List.take_left' ha
  have d1 : (a ++ (b ++ c)).drop 3 = b ++ c := List.drop_left' ha
  have t2 : (b ++ c).take 3 = b := List.take_left' hb
  have hbc : (a ++ (b ++ c)).drop 6 = c := by
    have : (a ++ (b ++ c)).drop 6 = ((a ++ (b ++ c)).drop 3).drop 3 := by
      rw [List.drop_drop]
    rw [this, d1, List.drop_left' hb]
  rw [t1, d1, t2, hbc, ← hc, List.take_length]

/-- A 4×4 grid from a flat 16-element list (verification device for the
15-puzzle state count; not part of the source). -/
def toGrid4 (l : List Nat) : GState :=
  [l.take 4, (l.drop 4).take 4, (l.drop 8).take 4, (l.drop 12).take 4]

/-- A 4×4 grid is rebuilt from its flattening. -/
theorem toGrid4_flatten (s : GState) (hs : Shaped 4 s) :
    toGrid4 s.flatten = s := by
  obtain ⟨hlen, hrows⟩ := hs
  obtain ⟨a, b, c, d, rfl⟩ : ∃ a b c d, s = [a, b, c, d] := by
    rcases s with _ | ⟨a, _ | ⟨b, _ | ⟨c, _ | ⟨d, _ | ⟨e, t⟩⟩⟩⟩⟩
    · simp at hlen
    · simp at hlen
    · simp at hlen
    · simp at hlen
    · exact ⟨a, b, c, d, rfl⟩
    · simp at hlen
  have ha : a.length = 4 := hrows a (by simp)
  have hb : b.length = 4 := hrows b (by simp)
  have hc : c.length = 4 := hrows c (by simp)
  have hd4 : d.length = 4 := hrows d (by simp)
  have hfl : ([a, b, c, d] : GState).flatten = a ++ (b ++ (c ++ d)) := by
    simp [List.flatten_cons]
  unfold toGrid4
  rw [hfl]
  have d1 : (a ++ (b ++ (c ++ d))).drop 4 = b ++ (c ++ d) := List.drop_left' ha
  have d2 : (a ++ (b ++ (c ++ d))).drop 8 = c ++ d := by
    have : (a ++ (b ++ (c ++ d))).drop 8 = ((a ++ (b ++ (c ++ d))).drop 4).drop 4 := by
      rw [List.drop_drop]
    rw [this, d1, List.drop_left' hb]
  have d3 : (a ++ (b ++ (c ++ d))).drop 12 = d := by
    have : (a ++ (b ++ (c ++ d))).drop 12 = ((a ++ (b ++ (c ++ d))).drop 8).drop 4 := by
      rw [List.drop_drop]
    rw [this, d2, List.drop_left' hc]
  rw [List.take_left' ha, d1, List.take_left' hb, d2, List.take_left' hc, d3,
    ← hd4, List.take_length]

/-- All valid 3×3 states, as images of the permutations of `range 9`. -/
def candStates3 : List GState := ((List.range (3 * 3)).permutations).map toGrid3

/-- All valid 4×4 states. -/
def candStates4 : List GState := ((List.range (4 * 4)).permutations).map toGrid4

theorem valid_mem_cand3 (s : GState) (h : ValidN 3 s) : s ∈ candStates3 := by
  obtain ⟨hsh, hms⟩ := h
  exact List.mem_map.mpr ⟨s.flatten,
    List.mem_permutations.mpr (Multiset.coe_eq_coe.mp hms),
    toGrid3_flatten s hsh⟩

theorem valid_mem_cand4 (s : GState) (h : ValidN 4 s) : s ∈ candStates4 := by
  obtain ⟨hsh, hms⟩ := h
  exact List.mem_map.mpr ⟨s.flatten,
    List.mem_permutations.mpr (Multiset.coe_eq_coe.mp hms),
    toGrid4_flatten s hsh⟩

/-- A duplicate-free list of candidates is no longer than the candidate
list. -/
theorem nodup_length_le (chain cands : List GState) (hnd : chain.Nodup)
    (hsub : ∀ s ∈ chain, s ∈ cands) : chain.length ≤ cands.length :=
  (hnd.subperm (fun _ ha => hsub _ ha)).length_le

/-- Successors cost one more than their parent (no validity needed). -/
theorem possibleMoves_cost (n : Nat) (nd child : Node)
    (h : child ∈ possibleMoves n nd) : child.cost = nd.cost + 1 := by
  obtain ⟨r, c, r2, c2, _, _, _, _, hceq⟩ :=
    possibleMoves_mem_decomp n nd child h
  rw [hceq]

/-- Invariant of the 8-puzzle loop: every open entry is the end of a chain
of pairwise-distinct valid states whose proper prefix is closed
(`visited`), and whose length witnesses the entry's cost. -/
def Inv8 (openq : List (Nat × Node)) (visited : List GState) : Prop :=
  ∀ e ∈ openq, ∃ pre : List GState,
    (pre ++ [e.2.state]).Nodup ∧ (∀ s ∈ pre ++ [e.2.state], ValidN 3 s) ∧
    pre.length = e.2.cost ∧ ∀ s ∈ pre, s ∈ visited

theorem Inv8_mono (openq : List (Nat × Node)) (v1 v2 : List GState)
    (hsub : ∀ s ∈ v1, s ∈ v2) (h : Inv8 openq v1) : Inv8 openq v2 := by
  intro e he
  obtain ⟨pre, h1, h2, h3, h4⟩ := h e he
  exact ⟨pre, h1, h2, h3, fun s hs => hsub s (h4 s hs)⟩

/-- Cost bound from the invariant: chains enumerate distinct valid states. -/
theorem Inv8_cost_le (openq : List (Nat × Node)) (visited : List GState)
    (hinv : Inv8 openq visited) (e : Nat × Node) (he : e ∈ openq) :
    e.2.cost + 1 ≤ candStates3.length := by
  obtain ⟨pre, h1, h2, h3, _⟩ := hinv e he
  have := nodup_length_le (pre ++ [e.2.state]) candStates3 h1
    (fun s hs => valid_mem_cand3 s (h2 s hs))
  simp only [List.length_append, List.length_singleton] at this
  omega

/-- The decreasing quantity: sum of `5 ^ (B - cost)` over the open heap. -/
def heapMeasure (B : Nat) (openq : List (Nat × Node)) : Nat :=
  ((openq : Multiset (Nat × Node)).map (fun e => 5 ^ (B - e.2.cost))).sum

theorem heapMeasure_heappush (B : Nat) (lt : (Nat × Node) → (Nat × Node) → Bool)
    (openq : List (Nat × Node)) (x : Nat × Node) :
    heapMeasure B (heappush lt openq x) =
      5 ^ (B - x.2.cost) + heapMeasure B openq := by
  unfold heapMeasure
  rw [heappush_multiset, Multiset.map_cons, Multiset.sum_cons]

theorem heapMeasure_heappop (B : Nat)
    (lt : (Nat × Node) → (Nat × Node) → Bool) (openq : List (Nat × Node))
    (e : Nat × Node) (rest : List (Nat × Node))
    (h : heappop lt openq = some (e, rest)) :
    heapMeasure B openq = 5 ^ (B - e.2.cost) + heapMeasure B rest := by
  unfold heapMeasure
  rw [heappop_multiset lt openq e rest h, Multiset.map_cons, Multiset.sum_cons]

/-- Expansion preserves the 8-puzzle invariant: each pushed successor
extends the popped node's chain by its own (unvisited, hence fresh) state. -/
theorem expand8_inv (heur : GState → Nat) (visited2 : List GState)
    (cur : Node) (pre : List GState)
    (hnd : (pre ++ [cur.state]).Nodup)
    (hvalid : ∀ s ∈ pre ++ [cur.state], ValidN 3 s)
    (hlen : pre.length = cur.cost)
    (hchain : ∀ s ∈ pre ++ [cur.state], s ∈ visited2) :
    ∀ (children : List Node), (∀ c ∈ children, c ∈ possibleMoves 3 cur) →
      ∀ openq, Inv8 openq visited2 →
        Inv8 (expand8 heur visited2 openq children).openq visited2 := by
  intro children
  induction children with
  | nil => intro _ openq hinv; exact hinv
  | cons child rest ih =>
    intro hmem openq hinv
    by_cases hv : child.state ∈ visited2
    · rw [expand8, if_pos hv]
      exact ih (fun c hc => hmem c (List.mem_cons_of_mem _ hc)) openq hinv
    · rw [expand8, if_neg hv]
      refine ih (fun c hc => hmem c (List.mem_cons_of_mem _ hc)) _ ?_
      intro e he
      rcases (mem_heappush _ _ _ e).mp he with he2 | he2
      · refine ⟨pre ++ [cur.state], ?_, ?_, ?_, ?_⟩
        · rw [← List.concat_eq_append]
          refine List.Nodup.concat ?_ hnd
          rw [he2]
          exact fun hmem2 => hv (hchain _ hmem2)
        · intro s hs
          rcases List.mem_append.mp hs with h1 | h1
          · exact hvalid s h1
          · rw [List.mem_singleton.mp h1, he2]
            exact (possibleMoves_child_valid 3 cur child
              (hvalid cur.state (by simp)) (hmem child (by simp))).1
        · rw [he2]
          simp only [List.length_append, List.length_singleton]
          rw [(possibleMoves_child_valid 3 cur child
            (hvalid cur.state (by simp)) (hmem child (by simp))).2]
          omega
        · intro s hs
          exact hchain s hs
      · exact hinv e he2

/-- Expansion adds at most `k · 5 ^ (B - K)` to the measure, where `k`
bounds the number of successors and `K` their common cost. -/
theorem expand8_measure (B : Nat) (heur : GState → Nat)
    (visited2 : List GState) (K : Nat) :
    ∀ (children : List Node), (∀ c ∈ children, c.cost = K) →
      ∀ openq,
        heapMeasure B (expand8 heur visited2 openq children).openq ≤
          heapMeasure B openq + children.length * 5 ^ (B - K) := by
  intro children
  induction children with
  | nil => intro _ openq; simp [expand8]
  | cons child rest ih =>
    intro hcost openq
    by_cases hv : child.state ∈ visited2
    · rw [expand8, if_pos hv]
      have := ih (fun c hc => hcost c (List.mem_cons_of_mem _ hc)) openq
      calc heapMeasure B (expand8 heur visited2 openq rest).openq ≤
            heapMeasure B openq + rest.length * 5 ^ (B - K) := this
        _ ≤ heapMeasure B openq + (child :: rest).length * 5 ^ (B - K) := by
            simp only [List.length_cons]
            have : rest.length * 5 ^ (B - K) ≤
                (rest.length + 1) * 5 ^ (B - K) :=
              Nat.mul_le_mul_right _ (by omega)
            omega
    · rw [expand8, if_neg hv]
      have h1 := ih (fun c hc => hcost c (List.mem_cons_of_mem _ hc))
        (heappush (entryLt nodeLt8) openq
          (child.cost + heur child.state, child))
      rw [heapMeasure_heappush] at h1
      dsimp only at h1
      have h2 : child.cost = K := hcost child (by simp)
      calc heapMeasure B (expand8 heur visited2
              (heappush (entryLt nodeLt8) openq
                (child.cost + heur child.state, child)) rest).openq ≤
            5 ^ (B - child.cost) + heapMeasure B openq +
              rest.length * 5 ^ (B - K) := by omega
        _ = heapMeasure B openq + (rest.length + 1) * 5 ^ (B - K) := by
            rw [h2]
            ring
        _ = heapMeasure B openq + (child :: rest).length * 5 ^ (B - K) := by
            simp only [List.length_cons]

/-- The number of successors is at most four (one per move offset). -/
theorem possibleMoves_length_le (n : Nat) (nd : Node) :
    (possibleMoves n nd).length ≤ 4 := by
  unfold possibleMoves
  rcases hfb : findBlank nd.state with _ | ⟨r, c⟩
  · simp
  · calc (List.filterMap _ movesList).length ≤ movesList.length :=
        List.length_filterMap_le _ _
      _ = 4 := by simp [movesList]

/-- Termination of the 8-puzzle loop: the measure is an upper bound on the
number of iterations, so it never runs out of fuel. -/
theorem loop8_terminates :
    ∀ (fuel : Nat) (heur : GState → Nat) (openq : List (Nat × Node))
      (visited : List GState) (steps nodes : Nat),
      Inv8 openq visited →
      heapMeasure candStates3.length openq < fuel →
      loop8 heur fuel openq visited steps nodes ≠ none := by
  intro fuel
  induction fuel with
  | zero => intro heur openq visited steps nodes _ hm; omega
  | succ fuel ih =>
    intro heur openq visited steps nodes hinv hm
    rw [loop8]
    rcases hpop : heappop (entryLt nodeLt8) openq with _ | ⟨e, rest⟩
    · simp
    · dsimp only
      by_cases hgoal : e.2.state = GOAL8
      · rw [if_pos hgoal]
        simp
      · rw [if_neg hgoal]
        have hemem : e ∈ openq := by
          have h1 := heappop_multiset (entryLt nodeLt8) openq e rest hpop
          have h2 : e ∈ (openq : Multiset (Nat × Node)) := by
            rw [h1]
            exact Multiset.mem_cons_self _ _
          exact Multiset.mem_coe.mp h2
        obtain ⟨pre, hnd, hvalid, hlen, hpresub⟩ := hinv e hemem
        have hcostB : e.2.cost + 1 ≤ candStates3.length :=
          Inv8_cost_le openq visited hinv e hemem
        have hrest_inv : Inv8 rest visited := fun e2 he2 =>
          hinv e2 (mem_of_heappop _ _ _ _ hpop e2 he2)
        have hsubv : ∀ s ∈ visited, s ∈ List.insert e.2.state visited :=
          fun s hs => List.mem_insert_of_mem hs
        have hrest_inv2 : Inv8 rest (List.insert e.2.state visited) :=
          Inv8_mono _ _ _ hsubv hrest_inv
        have hchain2 : ∀ s ∈ pre ++ [e.2.state],
            s ∈ List.insert e.2.state visited := by
          intro s hs
          rcases List.mem_append.mp hs with h1 | h1
          · exact hsubv s (hpresub s h1)
          · rw [List.mem_singleton.mp h1]
            exact List.mem_insert_self _ _
        have hinv2 : Inv8 (expand8 heur (List.insert e.2.state visited) rest
            (possibleMoves 3 e.2)).openq (List.insert e.2.state visited) :=
          expand8_inv heur _ e.2 pre hnd hvalid hlen hchain2 _
            (fun _ hc => hc) rest hrest_inv2
        have hKcost : ∀ c ∈ possibleMoves 3 e.2, c.cost = e.2.cost + 1 :=
          fun c hc => possibleMoves_cost 3 e.2 c hc
        have hm1 := expand8_measure candStates3.length heur
          (List.insert e.2.state visited) (e.2.cost + 1)
          (possibleMoves 3 e.2) hKcost rest
        have hlen4 := possibleMoves_length_le 3 e.2
        have hμpop := heapMeasure_heappop candStates3.length
          (entryLt nodeLt8) openq e rest hpop
        have hpow : 5 ^ (candStates3.length - e.2.cost) =
            5 * 5 ^ (candStates3.length - (e.2.cost + 1)) := by
          have heq : candStates3.length - e.2.cost =
              (candStates3.length - (e.2.cost + 1)) + 1 := by omega
          rw [heq, pow_succ]
          ring
        have hp : 0 < 5 ^ (candStates3.length - (e.2.cost + 1)) :=
          Nat.pos_pow_of_pos _ (by norm_num)
        have h4 : (possibleMoves 3 e.2).length *
            5 ^ (candStates3.length - (e.2.cost + 1)) ≤
            4 * 5 ^ (candStates3.length - (e.2.cost + 1)) :=
          Nat.mul_le_mul_right _ hlen4
        have hrec := ih heur _ (List.insert e.2.state visited) (steps + 1)
          (nodes + (expand8 heur (List.insert e.2.state visited) rest
            (possibleMoves 3 e.2)).nodes) hinv2 (by omega)
        rcases hr : loop8 heur fuel (expand8 heur
            (List.insert e.2.state visited) rest
            (possibleMoves 3 e.2)).openq (List.insert e.2.state visited)
            (steps + 1) (nodes + (expand8 heur
              (List.insert e.2.state visited) rest
              (possibleMoves 3 e.2)).nodes) with _ | pr
        · exact absurd hr hrec
        · rcases pr with ⟨res, evtail⟩
          simp

/-- Chain condition for the 15-puzzle: the `k`-th state of the chain is
recorded in the visited map with a g-value at most `k`. -/
def ChainOK (m : List (GState × Nat)) : Nat → List GState → Prop
  | _, [] => True
  | k, s :: rest =>
    (∃ g, lookupAssoc s m = some g ∧ g ≤ k) ∧ ChainOK m (k + 1) rest

theorem lookupAssoc_update_self (k : GState) (v : Nat) :
    ∀ m : List (GState × Nat), lookupAssoc k (updateAssoc k v m) = some v := by
  intro m
  induction m with
  | nil => simp [updateAssoc, lookupAssoc]
  | cons p rest ih =>
    by_cases h : p.1 = k
    · simp only [updateAssoc, lookupAssoc]
      rw [← Prod.mk.eta (p := p)]
      dsimp only
      rw [if_pos h]
      simp [lookupAssoc]
    · simp only [updateAssoc, lookupAssoc]
      rw [← Prod.mk.eta (p := p)]
      dsimp only
      rw [if_neg h]
      simp only [lookupAssoc, if_neg h]
      exact ih

theorem lookupAssoc_update_ne (k k2 : GState) (v : Nat) (hne : k2 ≠ k) :
    ∀ m : List (GState × Nat),
      lookupAssoc k2 (updateAssoc k v m) = lookupAssoc k2 m := by
  intro m
  induction m with
  | nil =>
    simp only [updateAssoc, lookupAssoc]
    rw [if_neg (fun h => hne h.symm)]
  | cons p rest ih =>
    by_cases h : p.1 = k
    · simp only [updateAssoc]
      rw [← Prod.mk.eta (p := p)]
      dsimp only
      rw [if_pos h]
      simp only [lookupAssoc]
      rw [if_neg (fun h2 => hne h2.symm), if_neg (by rw [h]; exact fun h2 => hne h2.symm)]
    · simp only [updateAssoc]
      rw [← Prod.mk.eta (p := p)]
      dsimp only
      rw [if_neg h]
      simp only [lookupAssoc]
      by_cases h2 : p.1 = k2
      · rw [if_pos h2, if_pos h2]
      · rw [if_neg h2, if_neg h2]
        exact ih

/-- Map `m2` refines `m1`: every recorded g-value survives, not larger. -/
def MapLE (m2 m1 : List (GState × Nat)) : Prop :=
  ∀ k g1, lookupAssoc k m1 = some g1 →
    ∃ g2, lookupAssoc k m2 = some g2 ∧ g2 ≤ g1

theorem MapLE_refl (m : List (GState × Nat)) : MapLE m m :=
  fun _ g1 h => ⟨g1, h, Nat.le_refl _⟩

theorem MapLE_trans (m3 m2 m1 : List (GState × Nat)) (h32 : MapLE m3 m2)
    (h21 : MapLE m2 m1) : MapLE m3 m1 := by
  intro k g1 h
  obtain ⟨g2, hg2, hle2⟩ := h21 k g1 h
  obtain ⟨g3, hg3, hle3⟩ := h32 k g2 hg2
  exact ⟨g3, hg3, by omega⟩

/-- The search only ever writes fresh keys or strictly smaller g-values. -/
theorem MapLE_update (m : List (GState × Nat)) (k : GState) (v : Nat)
    (h : lookupAssoc k m = none ∨ ∃ g0, lookupAssoc k m = some g0 ∧ v ≤ g0) :
    MapLE (updateAssoc k v m) m := by
  intro k2 g1 hk2
  by_cases he : k2 = k
  · subst he
    rcases h with h | ⟨g0, hg0, hv⟩
    · rw [h] at hk2
      cases hk2
    · rw [hg0] at hk2
      obtain rfl := Option.some.injEq .. ▸ hk2
      exact ⟨v, lookupAssoc_update_self k2 v m, hv⟩
  · rw [← lookupAssoc_update_ne k k2 v he m] at hk2
    exact ⟨g1, hk2, Nat.le_refl _⟩

theorem ChainOK_mono (m1 m2 : List (GState × Nat)) (hle : MapLE m2 m1) :
    ∀ (chain : List GState) (k : Nat), ChainOK m1 k chain →
      ChainOK m2 k chain := by
  intro chain
  induction chain with
  | nil => intro _ _; trivial
  | cons s rest ih =>
    intro k h
    obtain ⟨⟨g, hg, hgk⟩, hrest⟩ := h
    obtain ⟨g2, hg2, hle2⟩ := hle s g hg
    exact ⟨⟨g2, hg2, by omega⟩, ih (k + 1) hrest⟩

theorem ChainOK_concat (m : List (GState × Nat)) :
    ∀ (chain : List GState) (k : Nat) (s : GState),
      ChainOK m k chain →
      (∃ g, lookupAssoc s m = some g ∧ g ≤ k + chain.length) →
      ChainOK m k (chain ++ [s]) := by
  intro chain
  induction chain with
  | nil =>
    intro k s _ hg
    refine ⟨?_, trivial⟩
    simpa using hg
  | cons a rest ih =>
    intro k s h hg
    obtain ⟨ha, hrest⟩ := h
    refine ⟨ha, ih (k + 1) s hrest ?_⟩
    obtain ⟨g, h1, h2⟩ := hg
    refine ⟨g, h1, ?_⟩
    simp only [List.length_cons] at h2
    omega

theorem ChainOK_mem_bound (m : List (GState × Nat)) :
    ∀ (chain : List GState) (k : Nat) (s : GState),
      ChainOK m k chain → s ∈ chain →
      ∃ g, lookupAssoc s m = some g ∧ g < k + chain.length := by
  intro chain
  induction chain with
  | nil => intro k s _ hs; simp at hs
  | cons a rest ih =>
    intro k s h hs
    obtain ⟨⟨g, hg, hgk⟩, hrest⟩ := h
    rcases List.mem_cons.mp hs with rfl | hs2
    · exact ⟨g, hg, by simp only [List.length_cons]; omega⟩
    · obtain ⟨g2, hg2, hlt⟩ := ih (k + 1) s hrest hs2
      exact ⟨g2, hg2, by simp only [List.length_cons]; omega⟩

/-- Invariant of the 15-puzzle loop: every open entry ends a chain of
pairwise-distinct valid states whose `k`-th state is recorded in the
visited map with g-value at most `k`. -/
def Inv15 (openq : List (Nat × Node)) (visited : List (GState × Nat)) : Prop :=
  ∀ e ∈ openq, ∃ pre : List GState,
    (pre ++ [e.2.state]).Nodup ∧ (∀ s ∈ pre ++ [e.2.state], ValidN 4 s) ∧
    pre.length = e.2.cost ∧ ChainOK visited 0 (pre ++ [e.2.state])

theorem Inv15_mono (openq : List (Nat × Node)) (m1 m2 : List (GState × Nat))
    (hle : MapLE m2 m1) (h : Inv15 openq m1) : Inv15 openq m2 := by
  intro e he
  obtain ⟨pre, h1, h2, h3, h4⟩ := h e he
  exact ⟨pre, h1, h2, h3, ChainOK_mono m1 m2 hle _ 0 h4⟩

theorem Inv15_cost_le (openq : List (Nat × Node))
    (visited : List (GState × Nat)) (hinv : Inv15 openq visited)
    (e : Nat × Node) (he : e ∈ openq) :
    e.2.cost + 1 ≤ candStates4.length := by
  obtain ⟨pre, h1, h2, h3, _⟩ := hinv e he
  have := nodup_length_le (pre ++ [e.2.state]) candStates4 h1
    (fun s hs => valid_mem_cand4 s (h2 s hs))
  simp only [List.length_append, List.length_singleton] at this
  omega

/-- Expansion preserves the 15-puzzle invariant and only refines the map. -/
theorem expand15_inv (heur : GState → Nat) (cur : Node) (pre : List GState)
    (hnd : (pre ++ [cur.state]).Nodup)
    (hvalid : ∀ s ∈ pre ++ [cur.state], ValidN 4 s)
    (hlen : pre.length = cur.cost) :
    ∀ (children : List Node), (∀ c ∈ children, c ∈ possibleMoves 4 cur) →
      ∀ openq visited, Inv15 openq visited →
        ChainOK visited 0 (pre ++ [cur.state]) →
        Inv15 (expand15 heur openq visited children).openq
          (expand15 heur openq visited children).visited ∧
        MapLE (expand15 heur openq visited children).visited visited := by
  intro children
  induction children with
  | nil => intro _ openq visited hinv _; exact ⟨hinv, MapLE_refl visited⟩
  | cons child rest ih =>
    intro hmem openq visited hinv hcur
    have hlen2 : (pre ++ [cur.state]).length = cur.cost + 1 := by
      simp [hlen]
    by_cases hb : (match lookupAssoc child.state visited with
        | none => true
        | some g0 => decide (child.cost < g0)) = true
    · rw [expand15]
      dsimp only
      rw [if_pos hb]
      dsimp only
      have hcond : lookupAssoc child.state visited = none ∨
          ∃ g0, lookupAssoc child.state visited = some g0 ∧
            child.cost < g0 := by
        rcases hl : lookupAssoc child.state visited with _ | g0
        · exact Or.inl rfl
        · rw [hl] at hb
          exact Or.inr ⟨g0, rfl, of_decide_eq_true hb⟩
      have hmaple : MapLE (updateAssoc child.state child.cost visited)
          visited := by
        refine MapLE_update _ _ _ ?_
        rcases hcond with h | ⟨g0, h1, h2⟩
        · exact Or.inl h
        · exact Or.inr ⟨g0, h1, by omega⟩
      have hchildv := possibleMoves_child_valid 4 cur child
        (hvalid cur.state (by simp)) (hmem child (by simp))
      have hgchild : child.cost = cur.cost + 1 := hchildv.2
      have hnotin : child.state ∉ pre ++ [cur.state] := by
        intro hin
        obtain ⟨g0, hg0, hlt⟩ := ChainOK_mem_bound visited _ 0
          child.state hcur hin
        rw [hlen2] at hlt
        rcases hcond with h | ⟨g1, h1, h2⟩
        · rw [h] at hg0
          cases hg0
        · rw [h1] at hg0
          have : g1 = g0 := Option.some.injEq .. ▸ hg0
          omega
      have hch2 : ChainOK (updateAssoc child.state child.cost visited) 0
          ((pre ++ [cur.state]) ++ [child.state]) := by
        refine ChainOK_concat _ _ 0 child.state
          (ChainOK_mono visited _ hmaple _ 0 hcur) ?_
        exact ⟨child.cost, lookupAssoc_update_self _ _ _,
          by rw [hlen2]; omega⟩
      have hinv2 : Inv15 (heappush (entryLt nodeLt15) openq
          (child.cost + heur child.state, child))
          (updateAssoc child.state child.cost visited) := by
        intro e he
        rcases (mem_heappush _ _ _ e).mp he with he2 | he2
        · refine ⟨pre ++ [cur.state], ?_, ?_, ?_, ?_⟩
          · rw [← List.concat_eq_append]
            refine List.Nodup.concat ?_ hnd
            rw [he2]
            exact hnotin
          · intro s hs
            rcases List.mem_append.mp hs with h1 | h1
            · exact hvalid s h1
            · rw [List.mem_singleton.mp h1, he2]
              exact hchildv.1
          · rw [he2]
            rw [show ((child.cost + heur child.state, child) :
              Nat × Node).2.cost = child.cost from rfl]
            omega
          · rw [he2]
            exact hch2
        · obtain ⟨pre2, a1, a2, a3, a4⟩ := hinv e he2
          exact ⟨pre2, a1, a2, a3, ChainOK_mono visited _ hmaple _ 0 a4⟩
      have hcur2 : ChainOK (updateAssoc child.state child.cost visited) 0
          (pre ++ [cur.state]) := ChainOK_mono visited _ hmaple _ 0 hcur
      obtain ⟨r1, r2⟩ := ih (fun c hc => hmem c (List.mem_cons_of_mem _ hc))
        (heappush (entryLt nodeLt15) openq
          (child.cost + heur child.state, child))
        (updateAssoc child.state child.cost visited) hinv2 hcur2
      exact ⟨r1, MapLE_trans _ _ _ r2 hmaple⟩
    · rw [expand15]
      dsimp only
      rw [if_neg hb]
      dsimp only
      exact ih (fun c hc => hmem c (List.mem_cons_of_mem _ hc)) openq
        visited hinv hcur

/-- Expansion adds at most `k · 5 ^ (B - K)` to the 15-puzzle measure. -/
theorem expand15_measure (B : Nat) (heur : GState → Nat) (K : Nat) :
    ∀ (children : List Node), (∀ c ∈ children, c.cost = K) →
      ∀ openq visited,
        heapMeasure B (expand15 heur openq visited children).openq ≤
          heapMeasure B openq + children.length * 5 ^ (B - K) := by
  intro children
  induction children with
  | nil => intro _ openq visited; simp [expand15]
  | cons child rest ih =>
    intro hcost openq visited
    rw [expand15]
    dsimp only
    by_cases hb : (match lookupAssoc child.state visited with
        | none => true
        | some g0 => decide (child.cost < g0)) = true
    · rw [if_pos hb]
      dsimp only
      have h1 := ih (fun c hc => hcost c (List.mem_cons_of_mem _ hc))
        (heappush (entryLt nodeLt15) openq
          (child.cost + heur child.state, child))
        (updateAssoc child.state child.cost visited)
      rw [heapMeasure_heappush] at h1
      dsimp only at h1
      have h2 : child.cost = K := hcost child (by simp)
      calc heapMeasure B (expand15 heur
              (heappush (entryLt nodeLt15) openq
                (child.cost + heur child.state, child))
              (updateAssoc child.state child.cost visited) rest).openq ≤
            5 ^ (B - child.cost) + heapMeasure B openq +
              rest.length * 5 ^ (B - K) := by omega
        _ = heapMeasure B openq + (rest.length + 1) * 5 ^ (B - K) := by
            rw [h2]
            ring
        _ = heapMeasure B openq + (child :: rest).length * 5 ^ (B - K) := by
            simp only [List.length_cons]
    · rw [if_neg hb]
      dsimp only
      have h1 := ih (fun c hc => hcost c (List.mem_cons_of_mem _ hc))
        openq visited
      calc heapMeasure B (expand15 heur openq visited rest).openq ≤
            heapMeasure B openq + rest.length * 5 ^ (B - K) := h1
        _ ≤ heapMeasure B openq + (child :: rest).length * 5 ^ (B - K) := by
            simp only [List.length_cons]
            have : rest.length * 5 ^ (B - K) ≤
                (rest.length + 1) * 5 ^ (B - K) :=
              Nat.mul_le_mul_right _ (by omega)
            omega

/-- Termination of the 15-puzzle loop. -/
theorem loop15_terminates :
    ∀ (fuel : Nat) (heur : GState → Nat) (openq : List (Nat × Node))
      (visited : List (GState × Nat)) (steps nodes : Nat),
      Inv15 openq visited →
      heapMeasure candStates4.length openq < fuel →
      loop15 heur fuel openq visited steps nodes ≠ none := by
  intro fuel
  induction fuel with
  | zero => intro heur openq visited steps nodes _ hm; omega
  | succ fuel ih =>
    intro heur openq visited steps nodes hinv hm
    rw [loop15]
    rcases hpop : heappop (entryLt nodeLt15) openq with _ | ⟨e, rest⟩
    · simp
    · dsimp only
      by_cases hgoal : e.2.state = GOAL15
      · rw [if_pos hgoal]
        simp
      · rw [if_neg hgoal]
        have hemem : e ∈ openq := by
          have h1 := heappop_multiset (entryLt nodeLt15) openq e rest hpop
          have h2 : e ∈ (openq : Multiset (Nat × Node)) := by
            rw [h1]
            exact Multiset.mem_cons_self _ _
          exact Multiset.mem_coe.mp h2
        obtain ⟨pre, hnd, hvalid, hlen, hchain⟩ := hinv e hemem
        have hcostB : e.2.cost + 1 ≤ candStates4.length :=
          Inv15_cost_le openq visited hinv e hemem
        have hrest_inv : Inv15 rest visited := fun e2 he2 =>
          hinv e2 (mem_of_heappop _ _ _ _ hpop e2 he2)
        obtain ⟨hinv2, _⟩ := expand15_inv heur e.2 pre hnd hvalid hlen
          (possibleMoves 4 e.2) (fun _ hc => hc) rest visited hrest_inv hchain
        have hKcost : ∀ c ∈ possibleMoves 4 e.2, c.cost = e.2.cost + 1 :=
          fun c hc => possibleMoves_cost 4 e.2 c hc
        have hm1 := expand15_measure candStates4.length heur (e.2.cost + 1)
          (possibleMoves 4 e.2) hKcost rest visited
        have hlen4 := possibleMoves_length_le 4 e.2
        have hμpop := heapMeasure_heappop candStates4.length
          (entryLt nodeLt15) openq e rest hpop
        have hpow : 5 ^ (candStates4.length - e.2.cost) =
            5 * 5 ^ (candStates4.length - (e.2.cost + 1)) := by
          have heq : candStates4.length - e.2.cost =
              (candStates4.length - (e.2.cost + 1)) + 1 := by omega
          rw [heq, pow_succ]
          ring
        have hp : 0 < 5 ^ (candStates4.length - (e.2.cost + 1)) :=
          Nat.pos_pow_of_pos _ (by norm_num)
        have h4 : (possibleMoves 4 e.2).length *
            5 ^ (candStates4.length - (e.2.cost + 1)) ≤
            4 * 5 ^ (candStates4.length - (e.2.cost + 1)) :=
          Nat.mul_le_mul_right _ hlen4
        have hrec := ih heur _ (expand15 heur rest visited
            (possibleMoves 4 e.2)).visited (steps + 1)
          (nodes + (expand15 heur rest visited
            (possibleMoves 4 e.2)).nodes) hinv2 (by omega)
        rcases hr : loop15 heur fuel (expand15 heur rest visited
            (possibleMoves 4 e.2)).openq (expand15 heur rest visited
            (possibleMoves 4 e.2)).visited (steps + 1)
            (nodes + (expand15 heur rest visited
              (possibleMoves 4 e.2)).nodes) with _ | pr
        · exact absurd hr hrec
        · rcases pr with ⟨res, evtail⟩
          simp

/-- A pop event in a log contributes to `popCount`. -/
theorem popCount_pos_of_mem (f : Nat) (st : GState) (g : Nat)
    (evs : List SEvent) (h : SEvent.pop f st g ∈ evs) : 0 < popCount evs := by
  unfold popCount
  exact List.countP_pos_iff.mpr ⟨SEvent.pop f st g, h, rfl⟩

/-- The 8-puzzle loop returns a `(steps, nodes)` pair iff the goal state
was popped during the run; the `None` signal means the open set emptied
with the goal never popped. -/
theorem loop8_goal_dichotomy :
    ∀ (fuel : Nat) (heur : GState → Nat) (openq : List (Nat × Node))
      (visited : List GState) (steps nodes : Nat)
      (res : Option (Nat × Nat)) (ev : List SEvent),
      loop8 heur fuel openq visited steps nodes = some (res, ev) →
      (res.isSome = true ↔ ∃ f g, SEvent.pop f GOAL8 g ∈ ev) := by
  intro fuel
  induction fuel with
  | zero => intro heur openq visited steps nodes res ev h; simp [loop8] at h
  | succ fuel ih =>
    intro heur openq visited steps nodes res ev h
    rw [loop8] at h
    rcases hpop : heappop (entryLt nodeLt8) openq with _ | ⟨e, rest⟩ <;>
      rw [hpop] at h
    · simp only [Option.some.injEq, Prod.mk.injEq] at h
      rw [← h.1, ← h.2]
      simp
    · by_cases hgoal : e.2.state = GOAL8
      · simp only [hgoal, if_pos rfl] at h
        obtain ⟨h1, h2⟩ := Prod.mk.injEq .. ▸ (Option.some.injEq .. ▸ h)
        rw [← h1, ← h2]
        simp only [Option.isSome_some, true_iff]
        exact ⟨e.1, e.2.cost, by rw [← hgoal]; exact List.mem_singleton_self _⟩
      · simp only [if_neg hgoal] at h
        rcases hrec : loop8 heur fuel
            (expand8 heur (List.insert e.2.state visited) rest
              (possibleMoves 3 e.2)).openq
            (List.insert e.2.state visited) (steps + 1)
            (nodes + (expand8 heur (List.insert e.2.state visited) rest
              (possibleMoves 3 e.2)).nodes) with _ | ⟨res2, evtail⟩ <;>
          rw [hrec] at h
        · simp at h
        · simp only [Option.some.injEq, Prod.mk.injEq] at h
          obtain ⟨hres2, hev⟩ := h
          subst hres2
          have hiff := ih heur _ _ _ _ _ _ hrec
          rw [← hev]
          rw [hiff]
          constructor
          · rintro ⟨f, g, hmem⟩
            exact ⟨f, g, by
              simp only [List.mem_cons, List.mem_append]
              exact Or.inr (Or.inr hmem)⟩
          · rintro ⟨f, g, hmem⟩
            rcases List.mem_cons.mp hmem with h1 | h1
            · exact absurd (congrArg (fun ev => match ev with
                | SEvent.pop _ st _ => st
                | _ => GOAL8) h1) (by simpa using fun hh => hgoal hh.symm)
            · rcases List.mem_append.mp h1 with h2 | h2
              · have hc0 := (expand8_counts heur
                  (List.insert e.2.state visited) (possibleMoves 3 e.2) rest).1
                have := popCount_pos_of_mem f GOAL8 g _ h2
                omega
              · exact ⟨f, g, h2⟩

/-- The 15-puzzle version of the goal-pop dichotomy. -/
theorem loop15_goal_dichotomy :
    ∀ (fuel : Nat) (heur : GState → Nat) (openq : List (Nat × Node))
      (visited : List (GState × Nat)) (steps nodes : Nat)
      (res : Option (Nat × Nat)) (ev : List SEvent),
      loop15 heur fuel openq visited steps nodes = some (res, ev) →
      (res.isSome = true ↔ ∃ f g, SEvent.pop f GOAL15 g ∈ ev) := by
  intro fuel
  induction fuel with
  | zero => intro heur openq visited steps nodes res ev h; simp [loop15] at h
  | succ fuel ih =>
    intro heur openq visited steps nodes res ev h
    rw [loop15] at h
    rcases hpop : heappop (entryLt nodeLt15) openq with _ | ⟨e, rest⟩ <;>
      rw [hpop] at h
    · simp only [Option.some.injEq, Prod.mk.injEq] at h
      rw [← h.1, ← h.2]
      simp
    · by_cases hgoal : e.2.state = GOAL15
      · simp only [hgoal, if_pos rfl] at h
        obtain ⟨h1, h2⟩ := Prod.mk.injEq .. ▸ (Option.some.injEq .. ▸ h)
        rw [← h1, ← h2]
        simp only [Option.isSome_some, true_iff]
        exact ⟨e.1, e.2.cost, by rw [← hgoal]; exact List.mem_singleton_self _⟩
      · simp only [if_neg hgoal] at h
        rcases hrec : loop15 heur fuel
            (expand15 heur rest visited (possibleMoves 4 e.2)).openq
            (expand15 heur rest visited (possibleMoves 4 e.2)).visited
            (steps + 1)
            (nodes + (expand15 heur rest visited
              (possibleMoves 4 e.2)).nodes) with _ | ⟨res2, evtail⟩ <;>
          rw [hrec] at h
        · simp at h
        · simp only [Option.some.injEq, Prod.mk.injEq] at h
          obtain ⟨hres2, hev⟩ := h
          subst hres2
          have hiff := ih heur _ _ _ _ _ _ hrec
          rw [← hev]
          rw [hiff]
          constructor
          · rintro ⟨f, g, hmem⟩
            exact ⟨f, g, by
              simp only [List.mem_cons, List.mem_append]
              exact Or.inr (Or.inr hmem)⟩
          · rintro ⟨f, g, hmem⟩
            rcases List.mem_cons.mp hmem with h1 | h1
            · exact absurd (congrArg (fun ev => match ev with
                | SEvent.pop _ st _ => st
                | _ => GOAL15) h1) (by simpa using fun hh => hgoal hh.symm)
            · rcases List.mem_append.mp h1 with h2 | h2
              · have hc0 := (expand15_counts heur
                  (possibleMoves 4 e.2) rest visited).1
                have := popCount_pos_of_mem f GOAL15 g _ h2
                omega
              · exact ⟨f, g, h2⟩

/-- C6: on every valid start state (square grid, tile multiset
`{0,...,N²-1}`, fresh cost-0 node as the driver builds), `a_star_search`
terminates: there is enough fuel for the loop to return.  The returned
value is the Python `None` — a signal distinct from every
`(steps, nodes_expanded)` pair — exactly when the goal state is never
popped, which is when the open set empties first. -/
theorem c6_search_terminates :
    (∀ (start : Node) (heur : GState → Nat),
      start.cost = 0 → ValidN 3 start.state →
      ∃ (fuel : Nat) (res : Option (Nat × Nat)) (ev : List SEvent),
        a_star_search8 start heur fuel = some (res, ev) ∧
        (res.isSome = true ↔ ∃ f g, SEvent.pop f GOAL8 g ∈ ev)) ∧
    (∀ (start : Node) (heur : GState → Nat),
      start.cost = 0 → ValidN 4 start.state →
      ∃ (fuel : Nat) (res : Option (Nat × Nat)) (ev : List SEvent),
        a_star_search15 start heur fuel = some (res, ev) ∧
        (res.isSome = true ↔ ∃ f g, SEvent.pop f GOAL15 g ∈ ev)) := by
  constructor
  · intro start heur hc hv
    have hinit : heappush (entryLt nodeLt8) [] (0, start) = [(0, start)] := rfl
    have hinv0 : Inv8 (heappush (entryLt nodeLt8) [] (0, start)) [] := by
      intro e he
      rw [hinit, List.mem_singleton] at he
      refine ⟨[], ?_, ?_, ?_, ?_⟩
      · rw [he]
        exact List.nodup_singleton _
      · intro s hs
        rw [he] at hs
        have hse : s = start.state := by simpa using hs
        rw [hse]
        exact hv
      · rw [he, hc]
        rfl
      · intro s hs
        simp at hs
    rcases hres : loop8 heur
        (heapMeasure candStates3.length
          (heappush (entryLt nodeLt8) [] (0, start)) + 1)
        (heappush (entryLt nodeLt8) [] (0, start)) [] 0 0 with _ | ⟨res, ev⟩
    · exact absurd hres (loop8_terminates _ heur _ [] 0 0 hinv0 (by omega))
    · exact ⟨_, res, ev, hres, loop8_goal_dichotomy _ heur _ _ _ _ _ _ hres⟩
  · intro start heur hc hv
    have hinit : heappush (entryLt nodeLt15) []
        (start.cost + heur start.state, start) =
        [(start.cost + heur start.state, start)] := rfl
    have hinv0 : Inv15 (heappush (entryLt nodeLt15) []
        (start.cost + heur start.state, start))
        [(start.state, start.cost)] := by
      intro e he
      rw [hinit, List.mem_singleton] at he
      refine ⟨[], ?_, ?_, ?_, ?_⟩
      · rw [he]
        exact List.nodup_singleton _
      · intro s hs
        rw [he] at hs
        have hse : s = start.state := by simpa using hs
        rw [hse]
        exact hv
      · rw [he]
        exact hc.symm
      · rw [he]
        refine ⟨⟨start.cost, ?_, by omega⟩, trivial⟩
        simp [lookupAssoc]
    rcases hres : loop15 heur
        (heapMeasure candStates4.length
          (heappush (entryLt nodeLt15) []
            (start.cost + heur start.state, start)) + 1)
        (heappush (entryLt nodeLt15) []
          (start.cost + heur start.state, start))
        [(start.state, start.cost)] 0 0 with _ | ⟨res, ev⟩
    · exact absurd hres (loop15_terminates _ heur _ _ 0 0 hinv0 (by omega))
    · exact ⟨_, res, ev, hres, loop15_goal_dichotomy _ heur _ _ _ _ _ _ hres⟩

/-- Witness for `c6_search_terminates`: both halves applied to concrete
one-move start states. -/
theorem c6_search_terminates_witness :
    (∃ (fuel : Nat) (res : Option (Nat × Nat)) (ev : List SEvent),
      a_star_search8 ⟨[[1, 2, 3], [4, 5, 6], [7, 0, 8]], 0⟩
        h2_manhattan_distance8 fuel = some (res, ev) ∧
      (res.isSome = true ↔ ∃ f g, SEvent.pop f GOAL8 g ∈ ev)) ∧
    (∃ (fuel : Nat) (res : Option (Nat × Nat)) (ev : List SEvent),
      a_star_search15
        ⟨[[1, 2, 3, 4], [5, 6, 7, 8], [9, 10, 11, 12], [13, 14, 0, 15]], 0⟩
        h1_misplaced_tiles15 fuel = some (res, ev) ∧
      (res.isSome = true ↔ ∃ f g, SEvent.pop f GOAL15 g ∈ ev)) :=
  ⟨c6_search_terminates.1 ⟨[[1, 2, 3], [4, 5, 6], [7, 0, 8]], 0⟩
      h2_manhattan_distance8 rfl ⟨by decide, by decide⟩,
    c6_search_terminates.2
      ⟨[[1, 2, 3, 4], [5, 6, 7, 8], [9, 10, 11, 12], [13, 14, 0, 15]], 0⟩
      h1_misplaced_tiles15 rfl ⟨by decide, by decide⟩⟩
